import Mathlib

/-!
Verification of the AICR diff-to-review pipeline.

This file gives a shallow embedding, in Lean 4, of the core algorithms of the
AICR repository (an AI code-review service): the unified-diff parser, the
line grouper, the file-level format-only filter, the comment deduplicator,
the batch result parser, the review cache, and the orchestrator's
error-absorption and cache-write logic.  Each definition mirrors one
JavaScript function of the source; theorems at the end of the file settle
the specification claims against these definitions.

Machine integers of the source are modelled as `Nat` (line numbers, lengths)
and `Int` (millisecond clock readings); JavaScript strings are modelled as
Lean `String`; fallible or exception-throwing code is modelled with
`Option`/`Except` or explicit abort flags.
-/

/-! ## JavaScript string primitives

Helpers mirroring the semantics of the JavaScript string operations used by
the source: `\s` character class, `includes`, `split(/\s+/)`,
`replace(/\s+/g, "")`, and `replace(/^\d+\.\s*/, "")`. -/

/-- Character class of the JavaScript `\s` regex escape (the whitespace
characters that actually occur in the source's inputs). -/
def jsSpace (c : Char) : Bool :=
  c == ' ' || c == '\t' || c == '\n' || c == '\r' || c == '\x0b' ||
  c == '\x0c' || c == ' '

/-- Character class of the JavaScript `\w` regex escape: ASCII letters,
digits and underscore. -/
def jsWord (c : Char) : Bool :=
  (c ≥ 'a' && c ≤ 'z') || (c ≥ 'A' && c ≤ 'Z') || (c ≥ '0' && c ≤ '9') || c == '_'

/-- Character class of the JavaScript `\d` regex escape. -/
def jsDigit (c : Char) : Bool :=
  c ≥ '0' && c ≤ '9'

/-- Decides whether `need` occurs at the head of `hay` (character lists). -/
def headMatches : List Char → List Char → Bool
  | [], _ => true
  | _ :: _, [] => false
  | n :: ns, h :: hs => n == h && headMatches ns hs

/-- Decides whether `need` occurs somewhere in `hay` (character lists). -/
def charsContain (need : List Char) : List Char → Bool
  | [] => headMatches need []
  | h :: hs => headMatches need (h :: hs) || charsContain need hs

/-- JavaScript `s.includes(sub)`. -/
def jsIncludes (s sub : String) : Bool :=
  charsContain sub.data s.data

/-- JavaScript `s.trim()`: remove leading and trailing whitespace. -/
def jsTrim (s : String) : String :=
  String.mk (((s.data.dropWhile jsSpace).reverse.dropWhile jsSpace).reverse)

/-- JavaScript `s.startsWith(pre)`. -/
def jsStartsWith (s pre : String) : Bool :=
  headMatches pre.data s.data

/-- JavaScript `s.toLowerCase()`. -/
def jsToLower (s : String) : String :=
  String.mk (s.data.map Char.toLower)

/-- JavaScript `s.split("\n")`. -/
def jsSplitNlGo : List Char → List Char → List String
  | [], cur => [String.mk cur.reverse]
  | c :: cs, cur =>
    if c == '\n' then String.mk cur.reverse :: jsSplitNlGo cs []
    else jsSplitNlGo cs (c :: cur)

/-- JavaScript `s.split("\n")` on a string. -/
def jsSplitNl (s : String) : List String :=
  jsSplitNlGo s.data []

/-- JavaScript `parts.join(sep)`. -/
def jsJoin (sep : String) : List String → String
  | [] => ""
  | [x] => x
  | x :: y :: rest => x ++ sep ++ jsJoin sep (y :: rest)

/-- JavaScript `s.split(/\s+/)`: cut at each maximal whitespace run; leading
or trailing whitespace contributes an empty field.  The second argument is
`some cur` while a field is being accumulated and `none` while a whitespace
run is being skipped. -/
def jsSplitSpaceGo : List Char → Option (List Char) → List String
  | [], some cur => [String.mk cur.reverse]
  | [], none => [""]
  | c :: cs, some cur =>
    if jsSpace c then String.mk cur.reverse :: jsSplitSpaceGo cs none
    else jsSplitSpaceGo cs (some (c :: cur))
  | c :: cs, none =>
    if jsSpace c then jsSplitSpaceGo cs none
    else jsSplitSpaceGo cs (some [c])

/-- JavaScript `s.split(/\s+/)` on a string. -/
def jsSplitSpace (s : String) : List String :=
  jsSplitSpaceGo s.data (some [])

/-- JavaScript `s.replace(/\s+/g, "")`: delete every whitespace character. -/
def stripAllSpace (s : String) : String :=
  String.mk (s.data.filter (fun c => !jsSpace c))

/-- JavaScript `/^\s*$/.test(s)`: the string consists only of whitespace. -/
def isWhitespaceOnly (s : String) : Bool :=
  s.data.all jsSpace

/-- JavaScript `s.replace(/^\d+\.\s*/, "")`: if the string starts with one or
more digits followed by a literal dot, remove that numbering together with
the whitespace after the dot; otherwise return the string unchanged. -/
def stripLeadingNumber (s : String) : String :=
  let ds := s.data.takeWhile jsDigit
  let rest := s.data.dropWhile jsDigit
  if ds.isEmpty then s
  else
    match rest with
    | '.' :: tail => String.mk (tail.dropWhile jsSpace)
    | _ => s

/-! ## A small regular-expression engine

The grouper's semantic-boundary detectors and the quality filter of the
source are JavaScript regexes.  They are embedded as data in a standard
Brzozowski-derivative matcher, so that each source regex appears in this
file as one explicit `RE` value. -/

/-- Regular expressions over characters: empty language, empty string,
single-character class, concatenation, alternation, Kleene star. -/
inductive RE : Type where
  | fail : RE
  | eps : RE
  | cls : (Char → Bool) → RE
  | cat : RE → RE → RE
  | alt : RE → RE → RE
  | star : RE → RE

namespace RE

/-- Smart concatenation (absorbs the empty language and the empty string). -/
def mkCat : RE → RE → RE
  | .fail, _ => .fail
  | _, .fail => .fail
  | .eps, s => s
  | r, .eps => r
  | r, s => .cat r s

/-- Smart alternation (absorbs the empty language). -/
def mkAlt : RE → RE → RE
  | .fail, s => s
  | r, .fail => r
  | r, s => .alt r s

/-- Does the regex accept the empty string? -/
def nullable : RE → Bool
  | .fail => false
  | .eps => true
  | .cls _ => false
  | .cat r s => nullable r && nullable s
  | .alt r s => nullable r || nullable s
  | .star _ => true

/-- Brzozowski derivative with respect to one character. -/
def deriv : RE → Char → RE
  | .fail, _ => .fail
  | .eps, _ => .fail
  | .cls p, c => if p c then .eps else .fail
  | .cat r s, c =>
      if nullable r then mkAlt (mkCat (deriv r c) s) (deriv s c)
      else mkCat (deriv r c) s
  | .alt r s, c => mkAlt (deriv r c) (deriv s c)
  | .star r, c => mkCat (deriv r c) (.star r)

/-- Does the regex accept exactly the whole character list? -/
def acceptsChars (r : RE) (cs : List Char) : Bool :=
  nullable (cs.foldl deriv r)

/-- Does the regex accept some leading segment of the character list?  This
is the semantics of `regex.test(s)` for a JavaScript regex anchored with
`^` and not with `$`. -/
def acceptsLead : RE → List Char → Bool
  | r, [] => nullable r
  | r, c :: cs => nullable r || acceptsLead (deriv r c) cs

/-- JavaScript `test` for a `^...$`-anchored regex. -/
def testFull (r : RE) (s : String) : Bool :=
  acceptsChars r s.data

/-- JavaScript `test` for a `^...`-anchored regex (no `$`). -/
def testLead (r : RE) (s : String) : Bool :=
  acceptsLead r s.data

/-- Does the regex accept some segment of the character list starting
anywhere?  This is `regex.test(s)` for an unanchored JavaScript regex. -/
def acceptsInside (r : RE) : List Char → Bool
  | [] => nullable r
  | c :: cs => acceptsLead r (c :: cs) || acceptsInside r cs

/-- JavaScript `test` for an unanchored regex. -/
def testInside (r : RE) (s : String) : Bool :=
  acceptsInside r s.data

/-- Literal single character. -/
def chr (c : Char) : RE :=
  .cls (fun x => x == c)

/-- Literal single character, case-insensitive (the `i` flag). -/
def chrCI (c : Char) : RE :=
  .cls (fun x => x.toLower == c.toLower)

/-- Literal string. -/
def lit (s : String) : RE :=
  s.data.foldr (fun c r => mkCat (chr c) r) .eps

/-- Literal string under the `i` flag. -/
def litCI (s : String) : RE :=
  s.data.foldr (fun c r => mkCat (chrCI c) r) .eps

/-- JavaScript `\s`. -/
def sp : RE := .cls jsSpace

/-- JavaScript `\w`. -/
def wd : RE := .cls jsWord

/-- JavaScript `.` (any character except a line terminator). -/
def dot : RE := .cls (fun c => c != '\n' && c != '\r')

/-- JavaScript `r?`. -/
def opt (r : RE) : RE := mkAlt .eps r

/-- JavaScript `r+`. -/
def plus (r : RE) : RE := mkCat r (.star r)

end RE

/-! ## Data model

Records mirroring the object shapes produced by the source. -/

/-- One added line extracted from a unified diff (`parseDiffLines` objects:
`{ type, lineNumber, content, originalLine }`). -/
structure ChangeLine : Type where
  type : String
  lineNumber : Nat
  content : String
  originalLine : String
  deriving Repr, DecidableEq

/-- One group of added lines (`createNewGroup` objects:
`{ id, lines, startLine, endLine, type }`). -/
structure CodeGroup : Type where
  id : Nat
  lines : List ChangeLine
  startLine : Nat
  endLine : Nat
  type : String
  deriving Repr, DecidableEq

/-- One review produced by the batch result parser (`reviews.push` objects:
`{ lineNumber, content, review, groupId, isGroupEnd, groupSize }`). -/
structure ReviewResult : Type where
  lineNumber : Nat
  content : String
  review : String
  groupId : Nat
  isGroupEnd : Bool
  groupSize : Nat
  deriving Repr, DecidableEq

/-! ## Configuration (src/unnamed/part_003, `aiReviewConfig`)

Only the configuration sections the verified operations read are embedded.
Values are the source defaults, with no environment overrides: `parseInt` of
an unset variable is `NaN`, so every `||` falls through to its default. -/

/-- The `performance` section of `AI_REVIEW_CONFIG`. -/
structure PerformanceConfig : Type where
  maxConcurrentFiles : Nat
  maxGroupsPerBatch : Nat
  maxLinesPerGroup : Nat
  maxConcurrentAI : Nat
  deriving Repr, DecidableEq

/-- The `cache` section of `AI_REVIEW_CONFIG` (`expiry` in milliseconds). -/
structure CacheConfig : Type where
  expiry : Int
  maxSize : Nat
  deriving Repr, DecidableEq

/-- The sections of `AI_REVIEW_CONFIG` used by the verified operations. -/
structure AIReviewConfig : Type where
  performance : PerformanceConfig
  cache : CacheConfig
  lowQualityPatterns : List String
  verbosePatterns : List RE
  emptyWords : List String

/-- Embedding of a `verbosePatterns` entry without `.*`, compiled with the
`i` flag as in `new RegExp(pattern, "i")`. -/
def vLit (a : String) : RE :=
  RE.litCI a

/-- Embedding of a `verbosePatterns` entry of the form `a.*b`, compiled with
the `i` flag. -/
def vGap (a b : String) : RE :=
  RE.mkCat (RE.litCI a) (RE.mkCat (RE.star RE.dot) (RE.litCI b))

/-- The source configuration `AI_REVIEW_CONFIG` at its default values. -/
def AI_REVIEW_CONFIG : AIReviewConfig where
  performance :=
    { maxConcurrentFiles := 10
      maxGroupsPerBatch := 15
      maxLinesPerGroup := 1000
      maxConcurrentAI := 10 }
  cache :=
    { expiry := 24 * 60 * 60 * 1000
      maxSize := 1000 }
  lowQualityPatterns :=
    ["PASS", "pass", "Pass", "无问题", "没问题", "代码正确", "语法正确",
     "命名规范", "逻辑合理", "没有发现", "看起来不错", "代码很好",
     "没有问题", "代码没问题"]
  verbosePatterns :=
    [vLit "新增代码逻辑清晰", vLit "结构合理", vGap "符合" "规范",
     vGap "不存在明显" "问题", vLit "使用合理", vLit "整体设计",
     vLit "简洁有效", vLit "代码质量良好", vLit "实现方式正确",
     vLit "遵循最佳实践", vGap "没有发现" "问题", vLit "代码结构清晰",
     vLit "逻辑清晰", vLit "设计合理", vLit "实现合理", vGap "符合" "标准",
     vGap "没有" "问题", vGap "代码" "良好", vGap "整体" "合理",
     vGap "结构" "清晰"]
  emptyWords :=
    ["逻辑", "结构", "规范", "问题", "合理", "清晰", "良好", "正确",
     "标准", "实践", "设计", "实现", "方式", "质量", "整体", "简洁",
     "有效", "符合", "遵循", "没有"]

namespace CodeProcessor

/-! ## Diff parser (`CodeProcessor.parseDiffLines`) -/

/-- Numeric value of a digit run, as `parseInt` computes it. -/
def natOfDigits (ds : List Char) : Nat :=
  ds.foldl (fun n c => n * 10 + (c.toNat - 48)) 0

/-- Attempts the hunk-header regex `@@ -(\d+),?\d* \+(\d+),?\d*` at the head
of the character list, returning the second capture (`parseInt(match[2])`,
the new-file start line) on success. -/
def hunkMatchAt (cs : List Char) : Option Nat :=
  match cs with
  | '@' :: '@' :: ' ' :: '-' :: rest =>
    let d1 := rest.takeWhile jsDigit
    if d1.isEmpty then none
    else
      let r1 := rest.dropWhile jsDigit
      let r2 := match r1 with
        | ',' :: t => t.dropWhile jsDigit
        | _ => r1
      match r2 with
      | ' ' :: '+' :: r3 =>
        let d2 := r3.takeWhile jsDigit
        if d2.isEmpty then none else some (natOfDigits d2)
      | _ => none
  | _ => none

/-- Unanchored search for the hunk-header regex (`line.match(...)`): the
regex is tried at every start position, leftmost match wins. -/
def hunkNewStart : List Char → Option Nat
  | [] => none
  | c :: cs => hunkMatchAt (c :: cs) <|> hunkNewStart cs

/-- The scanning loop of `parseDiffLines`: one step per diff line, carrying
`currentLineNumber`.  Hunk headers reset the counter (when the regex
matches), `+` lines (not `+++`) emit a `ChangeLine` and advance, `-` lines
(not `---`) are skipped, and any other line that is not `---`/`+++`
metadata advances the counter without emitting. -/
def parseDiffAux : List String → Nat → List ChangeLine
  | [], _ => []
  | line :: rest, currentLineNumber =>
    if jsStartsWith line "@@" then
      match hunkNewStart line.data with
      | some n => parseDiffAux rest n
      | none => parseDiffAux rest currentLineNumber
    else if jsStartsWith line "+" && !jsStartsWith line "+++" then
      { type := "added", lineNumber := currentLineNumber,
        content := line.drop 1, originalLine := line }
        :: parseDiffAux rest (currentLineNumber + 1)
    else if jsStartsWith line "-" && !jsStartsWith line "---" then
      parseDiffAux rest currentLineNumber
    else if !jsStartsWith line "---" && !jsStartsWith line "+++" then
      parseDiffAux rest (currentLineNumber + 1)
    else
      parseDiffAux rest currentLineNumber

/-- Embedding of `CodeProcessor.parseDiffLines`: split the diff on newlines and scan,
starting from line counter 0. -/
def parseDiffLines (diff : String) : List ChangeLine :=
  parseDiffAux (jsSplitNl diff) 0

/-! ## Semantic boundary detectors (`isFunctionStart`,
`isClassObjectStart`, `isCommentBlockBoundary`) -/

/-- The `(async\s+)?` fragment shared by the function-start regexes. -/
def reAsyncOpt : RE :=
  RE.opt (RE.mkCat (RE.lit "async") (RE.plus RE.sp))

/-- The `kw\s+\w+\s*=\s*(async\s+)?\(` fragment for `const`/`let`/`var`. -/
def reDeclFn (kw : String) : RE :=
  RE.mkCat (RE.lit kw) (RE.mkCat (RE.plus RE.sp) (RE.mkCat (RE.plus RE.wd)
    (RE.mkCat (RE.star RE.sp) (RE.mkCat (RE.chr '=') (RE.mkCat (RE.star RE.sp)
      (RE.mkCat reAsyncOpt (RE.chr '(')))))))

/-- Embedding of
`/^\s*(function|async\s+function|const\s+\w+\s*=\s*(async\s+)?\(|let\s+\w+\s*=\s*(async\s+)?\(|var\s+\w+\s*=\s*(async\s+)?\()/`. -/
def reFunctionStart1 : RE :=
  RE.mkCat (RE.star RE.sp)
    (RE.mkAlt (RE.lit "function")
      (RE.mkAlt (RE.mkCat (RE.lit "async") (RE.mkCat (RE.plus RE.sp) (RE.lit "function")))
        (RE.mkAlt (reDeclFn "const") (RE.mkAlt (reDeclFn "let") (reDeclFn "var")))))

/-- Embedding of `/^\s*(\w+)\s*:\s*(async\s+)?\(/` (object method). -/
def reFunctionStart2 : RE :=
  RE.mkCat (RE.star RE.sp) (RE.mkCat (RE.plus RE.wd) (RE.mkCat (RE.star RE.sp)
    (RE.mkCat (RE.chr ':') (RE.mkCat (RE.star RE.sp)
      (RE.mkCat reAsyncOpt (RE.chr '('))))))

/-- Embedding of `/^\s*static\s+(async\s+)?\w+\s*\(/` (static method). -/
def reFunctionStart3 : RE :=
  RE.mkCat (RE.star RE.sp) (RE.mkCat (RE.lit "static") (RE.mkCat (RE.plus RE.sp)
    (RE.mkCat reAsyncOpt (RE.mkCat (RE.plus RE.wd)
      (RE.mkCat (RE.star RE.sp) (RE.chr '('))))))

/-- Embedding of `CodeProcessor.isFunctionStart`. -/
def isFunctionStart (currentContent : String) : Bool :=
  [reFunctionStart1, reFunctionStart2, reFunctionStart3].any
    (fun pattern => RE.testLead pattern currentContent)

/-- The `(class|interface|type|enum)` fragment. -/
def reClassKw : RE :=
  RE.mkAlt (RE.lit "class")
    (RE.mkAlt (RE.lit "interface") (RE.mkAlt (RE.lit "type") (RE.lit "enum")))

/-- Embedding of `/^\s*(class|interface|type|enum)\s+\w+/`. -/
def reClassObject1 : RE :=
  RE.mkCat (RE.star RE.sp) (RE.mkCat reClassKw (RE.mkCat (RE.plus RE.sp) (RE.plus RE.wd)))

/-- Embedding of `/^\s*export\s+(class|interface|type|enum)/`. -/
def reClassObject2 : RE :=
  RE.mkCat (RE.star RE.sp) (RE.mkCat (RE.lit "export") (RE.mkCat (RE.plus RE.sp) reClassKw))

/-- Embedding of `CodeProcessor.isClassObjectStart`. -/
def isClassObjectStart (currentContent : String) : Bool :=
  [reClassObject1, reClassObject2].any
    (fun pattern => RE.testLead pattern currentContent)

/-- Embedding of `/^\s*\/\*\*/` (JSDoc block start). -/
def reJsdocStart : RE :=
  RE.mkCat (RE.star RE.sp) (RE.lit "/**")

/-- Embedding of `/^\s*\*\/\s*$/` (block comment end; anchored both ends). -/
def reCommentBlockEnd : RE :=
  RE.mkCat (RE.star RE.sp) (RE.mkCat (RE.lit "*/") (RE.star RE.sp))

/-- Embedding of `/^\s*\/\*/` (block comment start). -/
def reBlockCommentStart : RE :=
  RE.mkCat (RE.star RE.sp) (RE.lit "/*")

/-- Embedding of `CodeProcessor.isCommentBlockBoundary`; the source receives
`lastContent` but its patterns only inspect `currentContent`. -/
def isCommentBlockBoundary (currentContent _lastContent : String) : Bool :=
  [fun s => RE.testLead reJsdocStart s,
   fun s => RE.testFull reCommentBlockEnd s,
   fun s => RE.testLead reBlockCommentStart s].any
    (fun pattern => pattern currentContent)

/-! ## Line grouper (`groupLines` and friends) -/

/-- Embedding of `CodeProcessor.createNewGroup`. -/
def createNewGroup (line : ChangeLine) (id : Nat) : CodeGroup :=
  { id := id
    lines := [line]
    startLine := line.lineNumber
    endLine := line.lineNumber
    type := "added" }

/-- Embedding of `CodeProcessor.addLineToGroup`. -/
def addLineToGroup (group : CodeGroup) (line : ChangeLine) : CodeGroup :=
  { group with lines := group.lines ++ [line], endLine := line.lineNumber }

/-- The source's `currentGroup.lines[currentGroup.lines.length - 1]`; the
grouping loop only evaluates it on groups whose `lines` is non-empty. -/
def lastLineOf (group : CodeGroup) : ChangeLine :=
  group.lines.getLastD { type := "added", lineNumber := 0, content := "", originalLine := "" }

/-- Embedding of `CodeProcessor.shouldStartNewGroupBasic`: split only on a line-number
gap. -/
def shouldStartNewGroupBasic (currentLine lastLine : ChangeLine)
    (_currentGroup : CodeGroup) : Bool :=
  currentLine.lineNumber != lastLine.lineNumber + 1

/-- Embedding of `CodeProcessor.shouldStartNewGroup`: split on a line-number gap, on the
configured group-size limit, or on a semantic boundary. -/
def shouldStartNewGroup (currentLine lastLine : ChangeLine)
    (currentGroup : CodeGroup) : Bool :=
  if currentLine.lineNumber != lastLine.lineNumber + 1 then true
  else if currentGroup.lines.length ≥ AI_REVIEW_CONFIG.performance.maxLinesPerGroup then true
  else
    let currentContent := jsTrim currentLine.content
    let lastContent := jsTrim lastLine.content
    if isFunctionStart currentContent then true
    else if isClassObjectStart currentContent then true
    else if isCommentBlockBoundary currentContent lastContent then true
    else false

/-- The loop body of `CodeProcessor.groupLines`, carrying the closed groups
and the group under construction.  A new group's id is the length of the
`groups` array after the current group is pushed, plus one. -/
def groupLinesGo (useSmartGrouping : Bool) :
    List ChangeLine → List CodeGroup → CodeGroup → List CodeGroup
  | [], groups, currentGroup => groups ++ [currentGroup]
  | currentLine :: rest, groups, currentGroup =>
    let lastLine := lastLineOf currentGroup
    let split := if useSmartGrouping
      then shouldStartNewGroup currentLine lastLine currentGroup
      else shouldStartNewGroupBasic currentLine lastLine currentGroup
    if split then
      groupLinesGo useSmartGrouping rest (groups ++ [currentGroup])
        (createNewGroup currentLine (groups.length + 2))
    else
      groupLinesGo useSmartGrouping rest groups (addLineToGroup currentGroup currentLine)

/-- Embedding of `CodeProcessor.groupLines`. -/
def groupLines (changeLines : List ChangeLine) (useSmartGrouping : Bool) :
    List CodeGroup :=
  match changeLines with
  | [] => []
  | first :: rest => groupLinesGo useSmartGrouping rest [] (createNewGroup first 1)

/-- Embedding of `CodeProcessor.optimizeLineGroups`: smart grouping. -/
def optimizeLineGroups (changeLines : List ChangeLine) : List CodeGroup :=
  groupLines changeLines true

/-- Embedding of `CodeProcessor.groupConsecutiveLines`: basic grouping. -/
def groupConsecutiveLines (changeLines : List ChangeLine) : List CodeGroup :=
  groupLines changeLines false

/-- Embedding of `CodeProcessor.chunkArray`: slices of `size` elements.  The source loop
diverges for `size = 0`; the pipeline only calls it with the positive
configured batch sizes, and the embedding returns `[]` in that case. -/
def chunkArray (array : List α) (size : Nat) : List (List α) :=
  if size = 0 then []
  else if array.isEmpty then []
  else array.take size :: chunkArray (array.drop size) size
termination_by array.length
decreasing_by
  rename_i hs he
  simp only [List.length_drop]
  have h1 : 0 < array.length := by
    cases array with
    | nil => simp at he
    | cons a l => simp
  omega

/-! ## Final quality filter (`filterMeaningfulReviews`) -/

/-- Embedding of `CodeProcessor.matchesLowQualityPatterns`: the lower-cased review
contains some lower-cased low-quality phrase. -/
def matchesLowQualityPatterns (reviewLower : String) : Bool :=
  AI_REVIEW_CONFIG.lowQualityPatterns.any
    (fun pattern => jsIncludes reviewLower (jsToLower pattern))

/-- Embedding of `CodeProcessor.matchesVerbosePatterns`: some verbose pattern, compiled
with the `i` flag, matches somewhere in the review. -/
def matchesVerbosePatterns (review : String) : Bool :=
  AI_REVIEW_CONFIG.verbosePatterns.any
    (fun pattern => RE.testInside pattern review)

/-- Embedding of `CodeProcessor.hasTooManyEmptyWords`: reviews over 100 characters that
contain at least 5 of the generic filler words. -/
def hasTooManyEmptyWords (review reviewLower : String) : Bool :=
  if review.length ≤ 100 then false
  else
    (AI_REVIEW_CONFIG.emptyWords.filter
      (fun word => jsIncludes reviewLower word)).length ≥ 5

/-- Embedding of `CodeProcessor.isLowQualityReview`. -/
def isLowQualityReview (review : String) : Bool :=
  let reviewLower := jsToLower review
  if matchesLowQualityPatterns reviewLower then true
  else if matchesVerbosePatterns review then true
  else if hasTooManyEmptyWords review reviewLower then true
  else false

/-- The loop of `CodeProcessor.filterMeaningfulReviews`, carrying the
`seenContent` set of `lineNumber`-plus-50-character keys. -/
def filterMeaningfulReviewsGo :
    List ReviewResult → List String → List ReviewResult
  | [], _ => []
  | review :: rest, seenContent =>
    if jsTrim review.review == "" then
      filterMeaningfulReviewsGo rest seenContent
    else
      let contentKey := toString review.lineNumber ++ "-" ++ review.review.take 50
      if seenContent.contains contentKey then
        filterMeaningfulReviewsGo rest seenContent
      else if review.review.length < 15 then
        filterMeaningfulReviewsGo rest seenContent
      else if isLowQualityReview review.review then
        filterMeaningfulReviewsGo rest seenContent
      else
        review :: filterMeaningfulReviewsGo rest (contentKey :: seenContent)

/-- Embedding of `CodeProcessor.filterMeaningfulReviews`: drop empty, duplicate (same
line and first 50 characters), short (< 15 characters) and low-quality
reviews. -/
def filterMeaningfulReviews (reviews : List ReviewResult) : List ReviewResult :=
  filterMeaningfulReviewsGo reviews []

end CodeProcessor

namespace FileFilter

/-! ## File-level filter (src/unnamed/part_004, `FileFilter`) -/

/-- Embedding of `FileFilter.parseDiffLines`: the trimmed contents of the added and of
the removed lines of a diff, in order. -/
def parseDiffLines (diff : String) : List String × List String :=
  let lines := jsSplitNl diff
  ((lines.filter (fun line => jsStartsWith line "+" && !jsStartsWith line "+++")).map
      (fun line => jsTrim (line.drop 1)),
   (lines.filter (fun line => jsStartsWith line "-" && !jsStartsWith line "---")).map
      (fun line => jsTrim (line.drop 1)))

/-- Embedding of `FileFilter.countAddedLines`. -/
def countAddedLines (diff : String) : Nat :=
  ((jsSplitNl diff).filter
    (fun line => jsStartsWith line "+" && !jsStartsWith line "+++")).length

/-- Embedding of `FileFilter.hasOnlyWhitespaceChanges`: every changed line is pure
whitespace. -/
def hasOnlyWhitespaceChanges (addedLines removedLines : List String) : Bool :=
  addedLines.all isWhitespaceOnly && removedLines.all isWhitespaceOnly

/-- The comment-syntax test used by `hasOnlyCommentFormatChanges`. -/
def isCommentLine (line : String) : Bool :=
  jsStartsWith line "//" || jsStartsWith line "/*" ||
  jsStartsWith line "*" || jsStartsWith line "*/"

/-- Embedding of `FileFilter.hasOnlyCommentFormatChanges`: every changed line is a
comment-syntax line. -/
def hasOnlyCommentFormatChanges (addedLines removedLines : List String) : Bool :=
  addedLines.all isCommentLine && removedLines.all isCommentLine

/-- Embedding of `FileFilter.hasOnlyNormalizedChanges`: the source loops over positions
`i` below the shorter length and returns `true` as soon as one positional
added/removed pair is non-empty and identical after all whitespace is
stripped. -/
def hasOnlyNormalizedChanges (addedLines removedLines : List String) : Bool :=
  (addedLines.zip removedLines).any (fun pair =>
    let addedNormalized := stripAllSpace pair.1
    let removedNormalized := stripAllSpace pair.2
    addedNormalized == removedNormalized && addedNormalized != "")

/-- Embedding of `FileFilter.isFormatOnlyChange`: judge a whole diff as a pure
formatting change. -/
def isFormatOnlyChange (diff : String) : Bool :=
  let parsed := parseDiffLines diff
  let addedLines := parsed.1
  let removedLines := parsed.2
  if addedLines.isEmpty && removedLines.isEmpty then false
  else if hasOnlyWhitespaceChanges addedLines removedLines then true
  else if hasOnlyCommentFormatChanges addedLines removedLines then true
  else if hasOnlyNormalizedChanges addedLines removedLines then true
  else false

/-- Embedding of `FileFilter.hasBasicChanges`: a diff is significant when it has at
least one added line and is not judged format-only. -/
def hasBasicChanges (diff : String) : Bool :=
  if countAddedLines diff == 0 then false
  else if isFormatOnlyChange diff then false
  else true

end FileFilter

/-! ## Comment deduplicator (src/server/services/utils/commentMatcher.js) -/

/-- One previously posted comment (`{ filePath, note, line, startLine,
endLine }`); the position fields are optional. -/
structure ExistingComment : Type where
  filePath : String
  note : String
  line : Option Nat
  startLine : Option Nat
  endLine : Option Nat
  deriving Repr, DecidableEq

/-- JavaScript truthiness of an optional numeric field: absent and `0` are
falsy. -/
def jsTruthyNum : Option Nat → Bool
  | some n => n != 0
  | none => false

namespace CommentMatcher

/-- Embedding of `CommentMatcher.isCommentOverlapping`: a truthy `startLine`/`endLine`
pair is tested for range intersection; otherwise a truthy `line` is tested
for membership; otherwise a `"general"` comment counts as overlapping. -/
def isCommentOverlapping (comment : ExistingComment) (startLine endLine : Nat) : Bool :=
  if jsTruthyNum comment.startLine && jsTruthyNum comment.endLine then
    !(decide (endLine < comment.startLine.getD 0) ||
      decide (startLine > comment.endLine.getD 0))
  else if jsTruthyNum comment.line then
    decide (comment.line.getD 0 ≥ startLine) && decide (comment.line.getD 0 ≤ endLine)
  else if comment.filePath == "general" then true
  else false

/-- The `commonIssues` keyword list of `isCommentSimilar`. -/
def commonIssues : List String :=
  ["注释", "comment", "无意义", "无用", "删除", "remove",
   "代码质量", "代码规范", "最佳实践", "代码结构", "无效", "冗余"]

/-- The `commentKeywords` list of `isCommentRelatedIssue`. -/
def commentKeywords : List String :=
  ["注释", "comment", "无意义", "无用", "删除", "无效", "冗余"]

/-- The `similarSuggestions` list of `isCommentRelatedIssue`. -/
def similarSuggestions : List String :=
  ["删除", "remove", "替换", "replace", "避免", "avoid"]

/-- Embedding of `CommentMatcher.isCommentRelatedIssue`: the comment uses a
comment-related keyword, the code actually contains comment syntax, and the
comment suggests removal or replacement. -/
def isCommentRelatedIssue (commentText codeContent : String) : Bool :=
  let hasCommentKeywords := commentKeywords.any
    (fun keyword => jsIncludes commentText keyword)
  let hasCommentInCode := jsIncludes codeContent "//" ||
    jsIncludes codeContent "/*" || jsIncludes codeContent "*/"
  if hasCommentKeywords && hasCommentInCode then
    similarSuggestions.any (fun suggestion => jsIncludes commentText suggestion)
  else false

/-- Embedding of `CommentMatcher.isCommentSimilar`: keyword hit plus either a
comment-related sub-check or a word-overlap ratio above `0.05`; the ratio
comparison `overlap / max(lengths) > 0.05` is the exact rational test
`20 * overlap > max(lengths)`. -/
def isCommentSimilar (comment : ExistingComment) (lines : List ChangeLine) : Bool :=
  if jsTrim comment.note == "" then false
  else
    let commentText := jsToLower comment.note
    let codeContent := jsToLower (jsJoin " " (lines.map (fun line => line.content)))
    let hasCommonIssue := commonIssues.any (fun issue => jsIncludes commentText issue)
    if hasCommonIssue then
      if isCommentRelatedIssue commentText codeContent then true
      else
        let codeWords := (jsSplitSpace codeContent).filter (fun word => word.length > 1)
        let commentWords := (jsSplitSpace commentText).filter (fun word => word.length > 1)
        let overlapCount := (codeWords.filter (fun word => commentWords.contains word)).length
        overlapCount > 0 && 20 * overlapCount > max codeWords.length commentWords.length
    else false

/-- Embedding of `CommentMatcher.hasSimilarComment`: some comment for this file (or the
`"general"` sentinel) overlaps the group and is similar to it. -/
def hasSimilarComment (existingComments : List ExistingComment) (fileName : String)
    (startLine endLine : Nat) (lines : List ChangeLine) : Bool :=
  if existingComments.isEmpty then false
  else
    let fileComments := existingComments.filter
      (fun comment => comment.filePath == fileName || comment.filePath == "general")
    if fileComments.isEmpty then false
    else fileComments.any (fun comment =>
      isCommentOverlapping comment startLine endLine && isCommentSimilar comment lines)

end CommentMatcher

/-! ## Review cache (src/unnamed/part_006, `CacheManager`)

The JavaScript `Map` with `Date.now()` timestamps is modelled as an
association list threaded through the operations, with the clock passed
explicitly. -/

/-- One cache entry: the stored reviews and their insertion time. -/
structure CacheEntry : Type where
  reviews : List ReviewResult
  timestamp : Int
  deriving Repr, DecidableEq

/-- The cache: an insertion-ordered key-value map. -/
abbrev CacheState : Type := List (String × CacheEntry)

namespace CacheManager

/-- JavaScript `Map.get`. -/
def mapGet (cache : CacheState) (key : String) : Option CacheEntry :=
  (cache.find? (fun entry => entry.1 == key)).map (fun entry => entry.2)

/-- JavaScript `Map.set`: overwrite in place, or append a new binding. -/
def mapSet (cache : CacheState) (key : String) (entry : CacheEntry) : CacheState :=
  if cache.any (fun e => e.1 == key) then
    cache.map (fun e => if e.1 == key then (key, entry) else e)
  else cache ++ [(key, entry)]

/-- JavaScript `Map.delete`. -/
def mapDelete (cache : CacheState) (key : String) : CacheState :=
  cache.filter (fun entry => entry.1 != key)

/-- Embedding of `CacheManager.generateCacheKey`: file name plus, per group, line range
and concatenated line content. -/
def generateCacheKey (fileName : String) (groups : List CodeGroup) : String :=
  let groupContent := jsJoin "|" (groups.map (fun g =>
    toString g.startLine ++ "-" ++ toString g.endLine ++ ":" ++
      jsJoin "" (g.lines.map (fun line => line.content))))
  fileName ++ ":" ++ groupContent

/-- Embedding of `CacheManager.getCachedReview` at clock `now`: return the stored
reviews when the entry exists and is younger than the TTL; otherwise delete
the key and return `null`. -/
def getCachedReview (now : Int) (cache : CacheState) (cacheKey : String) :
    Option (List ReviewResult) × CacheState :=
  match mapGet cache cacheKey with
  | some cached =>
    if now - cached.timestamp < AI_REVIEW_CONFIG.cache.expiry then
      (some cached.reviews, cache)
    else (none, mapDelete cache cacheKey)
  | none => (none, mapDelete cache cacheKey)

/-- Embedding of `CacheManager.cleanupCache` at clock `now`: drop every expired entry. -/
def cleanupCache (now : Int) (cache : CacheState) : CacheState :=
  cache.filter (fun entry => !(decide (now - entry.2.timestamp > AI_REVIEW_CONFIG.cache.expiry)))

/-- Embedding of `CacheManager.cacheReview` at clock `now`: insert or overwrite, then
sweep expired entries when the size cap is exceeded. -/
def cacheReview (now : Int) (cache : CacheState) (cacheKey : String)
    (reviews : List ReviewResult) : CacheState :=
  let cache1 := mapSet cache cacheKey { reviews := reviews, timestamp := now }
  if cache1.length > AI_REVIEW_CONFIG.cache.maxSize then cleanupCache now cache1
  else cache1

end CacheManager

namespace AIApiService

/-! ## Batch result parser (src/server/services/aiApiService.js,
`parseBatchReviewResultFast`)

The source wraps the whole parse in `try`/`catch` and returns the reviews
accumulated so far when an exception escapes; the only statement that can
throw on well-typed inputs is reading `lastLine.lineNumber` of a group with
an empty `lines` array.  The scan loops therefore return the accumulator
together with an abort flag. -/

/-- The review object pushed for a group (`reviews.push({...})`). -/
def mkReview (group : CodeGroup) (lastLine : ChangeLine) (review : String) : ReviewResult :=
  { lineNumber := lastLine.lineNumber
    content := lastLine.content
    review := review
    groupId := group.id
    isGroupEnd := true
    groupSize := group.lines.length }

/-- Embedding of `reviewText.split('\n').filter(line => line.trim())`. -/
def nonEmptyLines (reviewText : String) : List String :=
  (jsSplitNl reviewText).filter (fun line => jsTrim line != "")

/-- The primary numbered-response scan (`lines.forEach`): skip `PASS`
lines, pair each remaining line with the group at the same position, strip
the leading numbering, and push a review unless the cleaned text is empty
or the literal pass sentinel.  Returns the accumulated reviews and whether
the scan aborted on a group with no lines. -/
def primaryScan (groups : List CodeGroup) :
    List (Nat × String) → List ReviewResult → List ReviewResult × Bool
  | [], reviews => (reviews, false)
  | (index, line) :: rest, reviews =>
    if jsIncludes line "PASS" then primaryScan groups rest reviews
    else
      match groups.get? index with
      | none => primaryScan groups rest reviews
      | some group =>
        let cleanReview := jsTrim (stripLeadingNumber line)
        if cleanReview != "" && cleanReview != "PASS" then
          match group.lines.getLast? with
          | none => (reviews, true)
          | some lastLine =>
            primaryScan groups rest (reviews ++ [mkReview group lastLine cleanReview])
        else primaryScan groups rest reviews

/-- The first fallback scan (`responseLines.slice(0, groupCount).forEach`):
assign response lines to groups 1:1 by position, skipping `PASS` lines. -/
def fallbackScan (groups : List CodeGroup) :
    List (Nat × String) → List ReviewResult → List ReviewResult × Bool
  | [], reviews => (reviews, false)
  | (index, line) :: rest, reviews =>
    match groups.get? index with
    | none => fallbackScan groups rest reviews
    | some group =>
      if !jsIncludes line "PASS" then
        let cleanReview := jsTrim (stripLeadingNumber line)
        if cleanReview != "" && cleanReview != "PASS" then
          match group.lines.getLast? with
          | none => (reviews, true)
          | some lastLine =>
            fallbackScan groups rest (reviews ++ [mkReview group lastLine cleanReview])
        else fallbackScan groups rest reviews
      else fallbackScan groups rest reviews

/-- Embedding of `AIApiService.parseBatchReviewResultFast`: all-PASS short-circuit, then
the primary positional scan; when that yields nothing, assign lines 1:1 if
there are at least as many lines as groups, else assign the entire response
to the first group. -/
def parseBatchReviewResultFast (_fileName : String) (groups : List CodeGroup)
    (reviewText : String) : List ReviewResult :=
  let lines := nonEmptyLines reviewText
  let allPass := lines.all (fun line => jsIncludes line "PASS")
  if allPass then []
  else if jsTrim reviewText != "" && reviewText.length > 10 then
    match primaryScan groups lines.enum [] with
    | (reviews, true) => reviews
    | (reviews, false) =>
      if reviews.isEmpty then
        let groupCount := groups.length
        let responseLines := nonEmptyLines reviewText
        if responseLines.length ≥ groupCount then
          (fallbackScan groups (responseLines.take groupCount).enum []).1
        else
          match groups.get? 0 with
          | none => []
          | some firstGroup =>
            match firstGroup.lines.getLast? with
            | none => []
            | some lastLine => [mkReview firstGroup lastLine (jsTrim reviewText)]
      else reviews
  else []

end AIApiService

/-! ## Orchestrator (src/unnamed/part_009, `AICodeReviewer`)

The per-file pipeline's external effects (the model calls inside
`generateFileReview`, and the downstream review generation inside
`processBatchParallel`/`processGroupsIndividually`) are modelled as
`Except`-valued oracles passed in as arguments; an `Except.error` models a
rejected promise / thrown error at that call. -/

/-- One file's change within a change-set (`{ diff, new_path, old_path }`). -/
structure CodeChange : Type where
  new_path : Option String
  old_path : Option String
  diff : String
  deriving Repr, DecidableEq

/-- One file's aggregated review (`{ filePath, review, change }`). -/
structure FileReviewResult : Type where
  filePath : Option String
  review : List ReviewResult
  change : CodeChange
  deriving Repr, DecidableEq

/-- JavaScript `a || b` on optional strings: the empty string and an absent
value are falsy. -/
def jsOrStr (a b : Option String) : Option String :=
  if (a.getD "") != "" then a else b

namespace AICodeReviewer

/-- Embedding of `AICodeReviewer.processSingleFile` with the result of its inner
`generateFileReview` call passed as an oracle: a thrown error is caught and
yields `null`; otherwise the quality filter runs and a file with no
surviving reviews yields `null`. -/
def processSingleFile (generated : Except Unit (List ReviewResult))
    (change : CodeChange) : Option FileReviewResult :=
  match generated with
  | .error _ => none
  | .ok fileReview =>
    let fileName := jsOrStr change.new_path change.old_path
    let meaningfulReviews := CodeProcessor.filterMeaningfulReviews fileReview
    if meaningfulReviews.length > 0 then
      some { filePath := fileName, review := meaningfulReviews, change := change }
    else none

/-- Embedding of `AICodeReviewer.processFilesConcurrently` with each file's outcome
passed as an oracle (`Except.error` models a rejected promise): chunk the
changes by the concurrency bound, settle every chunk, and keep the
fulfilled non-null values in order. -/
def processFilesConcurrently (outcome : CodeChange → Except Unit (Option FileReviewResult))
    (changes : List CodeChange) : List FileReviewResult :=
  ((CodeProcessor.chunkArray changes AI_REVIEW_CONFIG.performance.maxConcurrentFiles).map
    (fun chunk => chunk.filterMap (fun change =>
      match outcome change with
      | .ok (some value) => some value
      | .ok none => none
      | .error _ => none))).flatten

/-- Embedding of `AICodeReviewer.processBatchWithFallback` at clock `now`, with the
outcome of `processBatchParallel` and the result of the individual-group
fallback passed as oracles.  Returns the reviews, the new cache state, and
whether the model path ran (cache miss).  Results are written to the cache
only when non-empty. -/
def processBatchWithFallback (now : Int) (cache : CacheState) (fileName : String)
    (batch : List CodeGroup) (parallelOutcome : Except Unit (List ReviewResult))
    (individualReviews : List ReviewResult) :
    List ReviewResult × CacheState × Bool :=
  let cacheKey := CacheManager.generateCacheKey fileName batch
  match CacheManager.getCachedReview now cache cacheKey with
  | (some cachedResult, cache1) => (cachedResult, cache1, false)
  | (none, cache1) =>
    match parallelOutcome with
    | .ok reviews =>
      if reviews.length > 0 then
        (reviews, CacheManager.cacheReview now cache1 cacheKey reviews, true)
      else (reviews, cache1, true)
    | .error _ => (individualReviews, cache1, true)

end AICodeReviewer

/-! ## Statement helpers

Definitions used to state the claims: which diff lines emit an added line,
which advance the line counter, the emitted record, the per-entry result of
the parser's primary scan, and the cache invariant. -/

/-- Diff lines on which `parseDiffAux` emits an `AddedLine`: lines starting
with `+` but not `+++`. -/
def addedDiffLine (line : String) : Bool :=
  jsStartsWith line "+" && !jsStartsWith line "+++"

/-- Diff lines on which `parseDiffAux` advances the new-file line counter
without emitting: lines starting with none of `@@`, `+`, `-`. -/
def advancesCounter (line : String) : Bool :=
  !jsStartsWith line "@@" && !jsStartsWith line "+" && !jsStartsWith line "-"

/-- The record `parseDiffAux` emits for an added diff line at counter
value `n`. -/
def emitAdded (line : String) (n : Nat) : ChangeLine :=
  { type := "added", lineNumber := n, content := line.drop 1, originalLine := line }

/-- The contribution of one `(index, line)` entry to the primary scan of
`parseBatchReviewResultFast`, read off the loop body: `none` when the line
contains the pass sentinel, when no group sits at the index, or when the
cleaned text is empty or the literal sentinel; otherwise the pushed
review. -/
def primaryEntryReview (groups : List CodeGroup) (entry : Nat × String) :
    Option ReviewResult :=
  if jsIncludes entry.2 "PASS" then none
  else
    match groups.get? entry.1 with
    | none => none
    | some group =>
      let cleanReview := jsTrim (stripLeadingNumber entry.2)
      if cleanReview != "" && cleanReview != "PASS" then
        group.lines.getLast?.map
          (fun lastLine => AIApiService.mkReview group lastLine cleanReview)
      else none

/-- Cache states whose every entry stores a non-empty review list. -/
def CacheWF (cache : CacheState) : Prop :=
  ∀ entry ∈ cache, entry.2.reviews ≠ []

/-- The split decision of the grouping loop for the current mode. -/
def groupSplitDecision (useSmartGrouping : Bool) (currentLine : ChangeLine)
    (currentGroup : CodeGroup) : Bool :=
  if useSmartGrouping then
    CodeProcessor.shouldStartNewGroup currentLine
      (CodeProcessor.lastLineOf currentGroup) currentGroup
  else
    CodeProcessor.shouldStartNewGroupBasic currentLine
      (CodeProcessor.lastLineOf currentGroup) currentGroup

/-! ## Claims -/

/-- C1, counterexample.  The diff `"@@ -1,2 +1,2 @@\n+a\n c\n+b"` has two
consecutively emitted added lines with no hunk header between them, but a
context line ` c` sits between them and advances the counter, so the second
emitted `lineNumber` is 3, not 1 + 1: the claimed step of exactly 1 between
consecutive emissions without an intervening hunk header is false. -/
theorem c1_counterexample :
    (CodeProcessor.parseDiffLines "@@ -1,2 +1,2 @@\n+a\n c\n+b").map
        (fun l => l.lineNumber) = [1, 3] ∧ (3 : Nat) ≠ 1 + 1 := by
  constructor
  · decide
  · decide

/-- C2, evaluation at the failing input.  The diff replaces
`const a  = 1;` by `const a = 1;` (whitespace only) and `let renamed = old;`
by `let renamedNew = newV;` (a real change).  The second positional pair
differs after whitespace-stripping and the changed lines are neither all
whitespace nor all comment-syntax, so the claim says the file is not
rejected as format-only; `isFormatOnlyChange` nevertheless returns `true`,
because `hasOnlyNormalizedChanges` answers "some positional pair is
whitespace-equal" instead of "every pair is". -/
theorem c2_code_eval :
    FileFilter.parseDiffLines
        "@@ -1,2 +1,2 @@\n-const a  = 1;\n-let renamed = old;\n+const a = 1;\n+let renamedNew = newV;"
      = (["const a = 1;", "let renamedNew = newV;"],
         ["const a  = 1;", "let renamed = old;"]) ∧
    stripAllSpace "let renamedNew = newV;" ≠ stripAllSpace "let renamed = old;" ∧
    FileFilter.hasOnlyWhitespaceChanges
      ["const a = 1;", "let renamedNew = newV;"]
      ["const a  = 1;", "let renamed = old;"] = false ∧
    FileFilter.hasOnlyCommentFormatChanges
      ["const a = 1;", "let renamedNew = newV;"]
      ["const a  = 1;", "let renamed = old;"] = false ∧
    FileFilter.isFormatOnlyChange
      "@@ -1,2 +1,2 @@\n-const a  = 1;\n-let renamed = old;\n+const a = 1;\n+let renamedNew = newV;"
      = true := by
  refine ⟨by decide, by decide, by decide, by decide, by decide⟩

/-- C3, counterexample.  With the configuration the grouper actually reads
(`AI_REVIEW_CONFIG.performance.maxLinesPerGroup`, default 1000, not 40), 41
consecutive plain lines stay in a single group of 41 > 40 lines. -/
theorem c3_counterexample :
    (CodeProcessor.optimizeLineGroups
        ((List.range 41).map (fun i =>
          { type := "added", lineNumber := i + 1, content := "aaa",
            originalLine := "+aaa" }))).map (fun g => g.lines.length) = [41] ∧
    AI_REVIEW_CONFIG.performance.maxLinesPerGroup = 1000 := by
  constructor
  · decide
  · decide

/-- C4, counterexample.  For the response `"1. short text"`, the captured
text after removing the numbering and trimming is `"short text"` — 10
characters, within the claimed `≤ 10` skip — and contains no pass sentinel;
the parser nevertheless emits a `ReviewResult` for the group, because the
source has no per-entry minimum-length check. -/
theorem c4_counterexample :
    AIApiService.parseBatchReviewResultFast "a.js"
        [{ id := 1,
           lines := [{ type := "added", lineNumber := 7, content := "x",
                       originalLine := "+x" }],
           startLine := 7, endLine := 7, type := "added" }]
        "1. short text"
      = [{ lineNumber := 7, content := "x", review := "short text",
           groupId := 1, isGroupEnd := true, groupSize := 1 }] ∧
    (jsTrim (stripLeadingNumber "1. short text")).length ≤ 10 ∧
    jsIncludes "1. short text" "PASS" = false := by
  refine ⟨by decide, by decide, by decide⟩

/-- C5, counterexample.  A comment with `filePath = "general"` that carries
a truthy `line` field is tested positionally like any other comment: at
`line = 100` against a group spanning 1–5 it is not treated as
overlapping, so "a general comment always overlaps every group" is false. -/
theorem c5_counterexample :
    CommentMatcher.isCommentOverlapping
      { filePath := "general", note := "note", line := some 100,
        startLine := none, endLine := none } 1 5 = false := by
  decide

/-- C5, amended.  A `"general"` comment is treated as overlapping every
candidate group exactly in the case the code reaches that branch: when it
carries no truthy `startLine`/`endLine` pair and no truthy `line`; a
general comment with truthy position fields is tested by position. -/
theorem c5_amended (comment : ExistingComment) (startLine endLine : Nat)
    (hfile : comment.filePath = "general")
    (hrange : (jsTruthyNum comment.startLine && jsTruthyNum comment.endLine) = false)
    (hline : jsTruthyNum comment.line = false) :
    CommentMatcher.isCommentOverlapping comment startLine endLine = true := by
  unfold CommentMatcher.isCommentOverlapping
  rw [hrange, hline, hfile]
  simp

/-- C5, witness for the amended theorem at a concrete positionless general
comment. -/
theorem c5_amended_witness :
    CommentMatcher.isCommentOverlapping
      { filePath := "general", note := "n", line := none,
        startLine := none, endLine := none } 1 5 = true :=
  c5_amended _ 1 5 rfl (by decide) (by decide)

/-! ## Grouping invariants (C3, C7) -/

/-- Both split predicates return `true` on a line-number gap, so a line is
appended to the current group only when it directly follows the group's
last line. -/
theorem adjacent_of_not_split (useSmartGrouping : Bool) (currentLine : ChangeLine)
    (currentGroup : CodeGroup)
    (h : groupSplitDecision useSmartGrouping currentLine currentGroup = false) :
    currentLine.lineNumber = (CodeProcessor.lastLineOf currentGroup).lineNumber + 1 := by
  cases useSmartGrouping with
  | false =>
    simp only [groupSplitDecision, if_neg, CodeProcessor.shouldStartNewGroupBasic,
      Bool.ite_eq_false_distrib, bne_eq_false_iff_eq] at h
    exact h
  | true =>
    simp only [groupSplitDecision, if_pos, CodeProcessor.shouldStartNewGroup] at h
    by_cases hgap : (currentLine.lineNumber != (CodeProcessor.lastLineOf currentGroup).lineNumber + 1) = true
    · rw [if_pos hgap] at h
      exact absurd h (by simp)
    · exact bne_eq_false_iff_eq.mp (Bool.not_eq_true _ |>.mp hgap)

/-- In smart mode a line is appended only while the current group is below
the configured size limit. -/
theorem below_cap_of_not_split (currentLine : ChangeLine) (currentGroup : CodeGroup)
    (h : groupSplitDecision true currentLine currentGroup = false) :
    currentGroup.lines.length < AI_REVIEW_CONFIG.performance.maxLinesPerGroup := by
  simp only [groupSplitDecision, if_pos, CodeProcessor.shouldStartNewGroup] at h
  by_cases hgap : (currentLine.lineNumber != (CodeProcessor.lastLineOf currentGroup).lineNumber + 1) = true
  · rw [if_pos hgap] at h
    exact absurd h (by simp)
  · rw [if_neg hgap] at h
    by_cases hcap : currentGroup.lines.length ≥ AI_REVIEW_CONFIG.performance.maxLinesPerGroup
    · rw [if_pos hcap] at h
      exact absurd h (by simp)
    · omega

/-- Any property preserved by `createNewGroup` and by appending under a
negative split decision holds for every group the grouping loop returns. -/
theorem groupLinesGo_invariant (useSmartGrouping : Bool) (P : CodeGroup → Prop)
    (hnew : ∀ line id, P (CodeProcessor.createNewGroup line id))
    (hadd : ∀ currentGroup currentLine, P currentGroup →
      groupSplitDecision useSmartGrouping currentLine currentGroup = false →
      P (CodeProcessor.addLineToGroup currentGroup currentLine)) :
    ∀ (rest : List ChangeLine) (groups : List CodeGroup) (currentGroup : CodeGroup),
      (∀ g ∈ groups, P g) → P currentGroup →
      ∀ g ∈ CodeProcessor.groupLinesGo useSmartGrouping rest groups currentGroup, P g := by
  intro rest
  induction rest with
  | nil =>
    intro groups currentGroup hgroups hcur g hmem
    simp only [CodeProcessor.groupLinesGo, List.mem_append, List.mem_singleton] at hmem
    rcases hmem with hmem | rfl
    · exact hgroups g hmem
    · exact hcur
  | cons currentLine ls ih =>
    intro groups currentGroup hgroups hcur g hmem
    simp only [CodeProcessor.groupLinesGo] at hmem
    by_cases hsplit : groupSplitDecision useSmartGrouping currentLine currentGroup = true
    · rw [show (if useSmartGrouping then
          CodeProcessor.shouldStartNewGroup currentLine
            (CodeProcessor.lastLineOf currentGroup) currentGroup
        else
          CodeProcessor.shouldStartNewGroupBasic currentLine
            (CodeProcessor.lastLineOf currentGroup) currentGroup) = true from hsplit,
        if_pos rfl] at hmem
      refine ih (groups ++ [currentGroup]) _ ?_ (hnew _ _) g hmem
      intro g' hg'
      rcases List.mem_append.mp hg' with hg' | hg'
      · exact hgroups g' hg'
      · rw [List.mem_singleton.mp hg']
        exact hcur
    · have hsplit' : groupSplitDecision useSmartGrouping currentLine currentGroup = false :=
        Bool.not_eq_true _ |>.mp hsplit
      rw [show (if useSmartGrouping then
          CodeProcessor.shouldStartNewGroup currentLine
            (CodeProcessor.lastLineOf currentGroup) currentGroup
        else
          CodeProcessor.shouldStartNewGroupBasic currentLine
            (CodeProcessor.lastLineOf currentGroup) currentGroup) = false from hsplit'] at hmem
      simp only [Bool.false_eq_true, if_false] at hmem
      exact ih groups _ hgroups (hadd currentGroup currentLine hcur hsplit') g hmem

/-- C7.  In both grouping modes, every produced group's lines carry
consecutive line numbers: `lines[i].lineNumber = lines[i-1].lineNumber + 1`
for every interior position. -/
theorem c7_group_adjacency (changeLines : List ChangeLine) (useSmartGrouping : Bool)
    (g : CodeGroup) (hg : g ∈ CodeProcessor.groupLines changeLines useSmartGrouping)
    (i : Nat) (h : i + 1 < g.lines.length) :
    (g.lines.get ⟨i + 1, h⟩).lineNumber
      = (g.lines.get ⟨i, Nat.lt_of_succ_lt h⟩).lineNumber + 1 := by
  have key : ∀ g ∈ CodeProcessor.groupLines changeLines useSmartGrouping,
      List.Chain' (fun a b => b.lineNumber = a.lineNumber + 1) g.lines ∧ g.lines ≠ [] := by
    intro g hg
    cases changeLines with
    | nil => simp [CodeProcessor.groupLines] at hg
    | cons first rest =>
      refine groupLinesGo_invariant useSmartGrouping
        (fun g => List.Chain' (fun a b => b.lineNumber = a.lineNumber + 1) g.lines ∧ g.lines ≠ [])
        ?_ ?_ rest [] (CodeProcessor.createNewGroup first 1) (by simp) ?_ g hg
      · intro line id
        exact ⟨List.chain'_singleton line, by simp [CodeProcessor.createNewGroup]⟩
      · intro currentGroup currentLine hP hdec
        refine ⟨?_, by simp [CodeProcessor.addLineToGroup]⟩
        simp only [CodeProcessor.addLineToGroup]
        rw [List.chain'_append]
        refine ⟨hP.1, List.chain'_singleton currentLine, ?_⟩
        intro x hx y hy
        rw [List.head?_cons, Option.mem_some_iff] at hy
        have hlast : currentGroup.lines.getLast? =
            some (CodeProcessor.lastLineOf currentGroup) := by
          unfold CodeProcessor.lastLineOf
          rw [List.getLastD_eq_getLast?]
          cases hq : currentGroup.lines.getLast? with
          | none => exact absurd (List.getLast?_eq_none_iff.mp hq) hP.2
          | some z => rfl
        rw [hlast, Option.mem_some_iff] at hx
        rw [← hx, ← hy]
        exact adjacent_of_not_split useSmartGrouping currentLine currentGroup hdec
      · exact ⟨List.chain'_singleton first, by simp [CodeProcessor.createNewGroup]⟩
  have hc := (key g hg).1
  have := List.chain'_iff_get.mp hc i (by omega)
  exact this

/-- C7, witness: the basic grouping of two adjacent lines yields one group
whose second line number is the first plus one. -/
theorem c7_group_adjacency_witness :
    (({ id := 1,
        lines := [{ type := "added", lineNumber := 4, content := "aa", originalLine := "+aa" },
                  { type := "added", lineNumber := 5, content := "bb", originalLine := "+bb" }],
        startLine := 4, endLine := 5, type := "added" } : CodeGroup).lines.get
        ⟨1, by decide⟩).lineNumber
      = (({ id := 1,
            lines := [{ type := "added", lineNumber := 4, content := "aa", originalLine := "+aa" },
                      { type := "added", lineNumber := 5, content := "bb", originalLine := "+bb" }],
            startLine := 4, endLine := 5, type := "added" } : CodeGroup).lines.get
        ⟨0, by decide⟩).lineNumber + 1 :=
  c7_group_adjacency
    [{ type := "added", lineNumber := 4, content := "aa", originalLine := "+aa" },
     { type := "added", lineNumber := 5, content := "bb", originalLine := "+bb" }]
    false _ (by decide) 0 (by decide)

/-- C3, amended.  In smart mode every produced group respects the size
limit the grouper actually reads: `lines.length` never exceeds
`AI_REVIEW_CONFIG.performance.maxLinesPerGroup`, whose default is 1000 (the
claimed default of 40 belongs to a different, unused code path). -/
theorem c3_amended (changeLines : List ChangeLine) (g : CodeGroup)
    (hg : g ∈ CodeProcessor.optimizeLineGroups changeLines) :
    g.lines.length ≤ AI_REVIEW_CONFIG.performance.maxLinesPerGroup := by
  unfold CodeProcessor.optimizeLineGroups at hg
  cases changeLines with
  | nil => simp [CodeProcessor.groupLines] at hg
  | cons first rest =>
    refine groupLinesGo_invariant true
      (fun g => g.lines.length ≤ AI_REVIEW_CONFIG.performance.maxLinesPerGroup)
      ?_ ?_ rest [] (CodeProcessor.createNewGroup first 1) (by simp) ?_ g hg
    · intro line id
      simp [CodeProcessor.createNewGroup]
      decide
    · intro currentGroup currentLine hP hdec
      have := below_cap_of_not_split currentLine currentGroup hdec
      simp only [CodeProcessor.addLineToGroup, List.length_append, List.length_singleton]
      omega
    · simp [CodeProcessor.createNewGroup]
      decide

/-- C3, witness for the amended bound at a concrete two-line input. -/
theorem c3_amended_witness :
    ({ id := 1,
       lines := [{ type := "added", lineNumber := 4, content := "aa", originalLine := "+aa" },
                 { type := "added", lineNumber := 5, content := "bb", originalLine := "+bb" }],
       startLine := 4, endLine := 5, type := "added" } : CodeGroup).lines.length
      ≤ AI_REVIEW_CONFIG.performance.maxLinesPerGroup :=
  c3_amended
    [{ type := "added", lineNumber := 4, content := "aa", originalLine := "+aa" },
     { type := "added", lineNumber := 5, content := "bb", originalLine := "+bb" }]
    _ (by decide)

/-! ## Diff parser lemmas (C1) -/

/-- A head match for a longer pattern is a head match for its leading
part. -/
theorem headMatches_mono (p1 p2 ls : List Char)
    (h : headMatches (p1 ++ p2) ls = true) : headMatches p1 ls = true := by
  induction p1 generalizing ls with
  | nil => rfl
  | cons a as ih =>
    cases ls with
    | nil => simp [headMatches] at h
    | cons c cs =>
      simp only [List.cons_append, headMatches, Bool.and_eq_true] at h ⊢
      exact ⟨h.1, ih cs h.2⟩

/-- Head matches for patterns with different first characters exclude each
other. -/
theorem headMatches_cons_ne {a b : Char} (hne : b ≠ a) (p1 p2 ls : List Char)
    (h : headMatches (a :: p1) ls = true) : headMatches (b :: p2) ls = false := by
  cases ls with
  | nil => simp [headMatches] at h
  | cons c cs =>
    simp only [headMatches, Bool.and_eq_true, beq_iff_eq] at h
    simp only [headMatches, Bool.and_eq_false_iff]
    left
    have hbc : b ≠ c := by
      rw [← h.1]
      exact hne
    exact beq_eq_false_iff_ne.mpr hbc

/-- On an added diff line the scanner emits one record and advances. -/
theorem parseDiffAux_added (line : String) (rest : List String) (n : Nat)
    (h : addedDiffLine line = true) :
    CodeProcessor.parseDiffAux (line :: rest) n
      = emitAdded line n :: CodeProcessor.parseDiffAux rest (n + 1) := by
  have h2 : (jsStartsWith line "+" && !jsStartsWith line "+++") = true := h
  have hplus : jsStartsWith line "+" = true := (Bool.and_eq_true _ _ |>.mp h2).1
  have hhunk : jsStartsWith line "@@" = false := by
    unfold jsStartsWith at hplus ⊢
    exact headMatches_cons_ne (by decide) _ _ _ hplus
  rw [CodeProcessor.parseDiffAux.eq_def]
  simp only [hhunk, Bool.false_eq_true, if_false, h2, if_true, emitAdded]

/-- On a non-added, non-hunk-header line the scanner emits nothing and
advances exactly when the line is a counter-advancing context line. -/
theorem parseDiffAux_silent (line : String) (rest : List String) (n : Nat)
    (h1 : addedDiffLine line = false) (h2 : jsStartsWith line "@@" = false) :
    CodeProcessor.parseDiffAux (line :: rest) n
      = CodeProcessor.parseDiffAux rest (n + (if advancesCounter line then 1 else 0)) := by
  have h1' : (jsStartsWith line "+" && !jsStartsWith line "+++") = false := h1
  rw [CodeProcessor.parseDiffAux.eq_def]
  simp only [h2, Bool.false_eq_true, if_false, h1']
  by_cases hminus : (jsStartsWith line "-" && !jsStartsWith line "---") = true
  · have hadv : advancesCounter line = false := by
      unfold advancesCounter
      have : jsStartsWith line "-" = true := (Bool.and_eq_true _ _ |>.mp hminus).1
      simp [this]
    simp only [hminus, if_true, hadv, Bool.false_eq_true, if_false, Nat.add_zero]
  · have hminus' : (jsStartsWith line "-" && !jsStartsWith line "---") = false :=
      Bool.not_eq_true _ |>.mp hminus
    simp only [hminus', Bool.false_eq_true, if_false]
    by_cases hctx : (!jsStartsWith line "---" && !jsStartsWith line "+++") = true
    · have hadv : advancesCounter line = true := by
        have hc := Bool.and_eq_true _ _ |>.mp hctx
        have hnp : jsStartsWith line "+" = false := by
          by_contra hp
          have hp' : jsStartsWith line "+" = true := Bool.of_not_eq_false hp
          have : jsStartsWith line "+++" = true := by
            rcases Bool.and_eq_false_iff.mp h1' with hx | hx
            · rw [hp'] at hx
              exact absurd hx (by decide)
            · simpa using hx
          rw [this] at hctx
          simp at hctx
        have hnm : jsStartsWith line "-" = false := by
          by_contra hm
          have hm' : jsStartsWith line "-" = true := Bool.of_not_eq_false hm
          have : jsStartsWith line "---" = true := by
            rcases Bool.and_eq_false_iff.mp hminus' with hx | hx
            · rw [hm'] at hx
              exact absurd hx (by decide)
            · simpa using hx
          rw [this] at hctx
          simp at hctx
        unfold advancesCounter
        rw [h2, hnp, hnm]
        rfl
      simp only [hctx, if_true, hadv]
    · have hctx' : (!jsStartsWith line "---" && !jsStartsWith line "+++") = false :=
        Bool.not_eq_true _ |>.mp hctx
      simp only [hctx', Bool.false_eq_true, if_false]
      have hadv : advancesCounter line = false := by
        rcases Bool.and_eq_false_iff.mp hctx' with hx | hx
        · have h3 : jsStartsWith line "---" = true := by simpa using hx
          have : jsStartsWith line "-" = true := by
            unfold jsStartsWith at h3 ⊢
            exact headMatches_mono ['-'] ['-', '-'] _ h3
          unfold advancesCounter
          simp [this]
        · have h3 : jsStartsWith line "+++" = true := by simpa using hx
          have : jsStartsWith line "+" = true := by
            unfold jsStartsWith at h3 ⊢
            exact headMatches_mono ['+'] ['+', '+'] _ h3
          unfold advancesCounter
          simp [this]
      simp only [hadv, Bool.false_eq_true, if_false, Nat.add_zero]

/-- A run of non-added, non-hunk lines only shifts the counter by the
number of counter-advancing lines in it. -/
theorem parseDiffAux_silent_run (ys : List String)
    (hys : ∀ y ∈ ys, addedDiffLine y = false ∧ jsStartsWith y "@@" = false) :
    ∀ (rest : List String) (n : Nat),
      CodeProcessor.parseDiffAux (ys ++ rest) n
        = CodeProcessor.parseDiffAux rest (n + (ys.filter advancesCounter).length) := by
  induction ys with
  | nil => intro rest n; simp
  | cons y ys ih =>
    intro rest n
    have hy := hys y (List.mem_cons_self y ys)
    rw [List.cons_append, parseDiffAux_silent y (ys ++ rest) n hy.1 hy.2,
      ih (fun z hz => hys z (List.mem_cons_of_mem y hz)) rest]
    congr 1
    rw [List.filter_cons]
    by_cases hb : advancesCounter y = true
    · rw [hb]
      simp only [if_true, List.length_cons]
      omega
    · rw [Bool.not_eq_true _ |>.mp hb]
      simp only [Bool.false_eq_true, if_false]
      omega

/-- The number of emitted records equals the number of added lines. -/
theorem parseDiffAux_length (ls : List String) :
    ∀ (n : Nat),
      (CodeProcessor.parseDiffAux ls n).length = (ls.filter addedDiffLine).length := by
  induction ls with
  | nil => intro n; rfl
  | cons line rest ih =>
    intro n
    by_cases hadd : addedDiffLine line = true
    · rw [parseDiffAux_added line rest n hadd, List.filter_cons_of_pos hadd]
      simp [ih]
    · have hadd' : addedDiffLine line = false := Bool.not_eq_true _ |>.mp hadd
      rw [List.filter_cons_of_neg (by simp [hadd'])]
      by_cases hhunk : jsStartsWith line "@@" = true
      · unfold CodeProcessor.parseDiffAux
        rw [hhunk]
        simp only [if_true]
        cases CodeProcessor.hunkNewStart line.data with
        | none => exact ih n
        | some m => exact ih m
      · rw [parseDiffAux_silent line rest n hadd' (Bool.not_eq_true _ |>.mp hhunk)]
        exact ih _

/-- C1, amended.  The count half of the claim holds: the parser emits
exactly one record per line starting with `+` but not `+++`.  The adjacency
half holds in the corrected form: when two added lines are separated only
by lines that are neither added lines nor hunk headers, they are emitted
consecutively and the second `lineNumber` exceeds the first by 1 plus the
number of intervening counter-advancing context lines (lines starting with
none of `@@`, `+`, `-`); the step is exactly 1 only when no such context
line intervenes. -/
theorem c1_amended :
    (∀ diff : String,
      (CodeProcessor.parseDiffLines diff).length
        = ((jsSplitNl diff).filter addedDiffLine).length)
    ∧ (∀ (n : Nat) (a b : String) (ys zs : List String),
        addedDiffLine a = true → addedDiffLine b = true →
        (∀ y ∈ ys, addedDiffLine y = false ∧ jsStartsWith y "@@" = false) →
        CodeProcessor.parseDiffAux (a :: (ys ++ b :: zs)) n
          = emitAdded a n
            :: emitAdded b (n + 1 + (ys.filter advancesCounter).length)
            :: CodeProcessor.parseDiffAux zs
                 (n + 2 + (ys.filter advancesCounter).length)) := by
  constructor
  · intro diff
    unfold CodeProcessor.parseDiffLines
    exact parseDiffAux_length (jsSplitNl diff) 0
  · intro n a b ys zs ha hb hys
    rw [parseDiffAux_added a (ys ++ b :: zs) n ha,
      parseDiffAux_silent_run ys hys (b :: zs) (n + 1),
      parseDiffAux_added b zs _ hb]
    have harith : n + 1 + (ys.filter advancesCounter).length + 1
        = n + 2 + (ys.filter advancesCounter).length := by omega
    rw [harith]

/-- C1, witness for the amended theorem: two added lines separated by one
deletion line are emitted consecutively with line numbers 4 and 5. -/
theorem c1_amended_witness :
    CodeProcessor.parseDiffAux ["+a", "-x", "+b"] 4
      = emitAdded "+a" 4
        :: emitAdded "+b" (4 + 1 + ((["-x"].filter advancesCounter).length))
        :: CodeProcessor.parseDiffAux []
             (4 + 2 + ((["-x"].filter advancesCounter).length)) := by
  have h := c1_amended.2 4 "+a" "+b" ["-x"] [] (by decide) (by decide) (by decide)
  simpa using h

/-! ## Batch result parser lemmas (C4, C8) -/

/-- The groups referenced by the scans have a last line when their `lines`
are non-empty. -/
theorem getLast?_of_ne_nil {α : Type} (l : List α) (h : l ≠ []) :
    ∃ x, l.getLast? = some x := by
  cases hq : l.getLast? with
  | none => exact absurd (List.getLast?_eq_none_iff.mp hq) h
  | some x => exact ⟨x, rfl⟩

/-- C4, amended.  In the primary numbered-line strategy, when every group
has at least one line the scan never aborts and appends exactly the
per-entry results; an entry contributes no `ReviewResult` for its group
precisely when its line contains the pass sentinel, no group sits at its
position, or the text left after removing the leading numbering and
trimming is empty or is exactly the sentinel — there is no per-entry
10-character minimum (the only length check is `reviewText.length > 10` on
the whole response). -/
theorem c4_amended :
    (∀ (groups : List CodeGroup) (entries : List (Nat × String))
        (acc : List ReviewResult),
      (∀ g ∈ groups, g.lines ≠ []) →
      AIApiService.primaryScan groups entries acc
        = (acc ++ entries.filterMap (primaryEntryReview groups), false))
    ∧ (∀ (groups : List CodeGroup) (index : Nat) (line : String),
        (∀ g ∈ groups, g.lines ≠ []) →
        (primaryEntryReview groups (index, line) = none
          ↔ jsIncludes line "PASS" = true ∨ groups.get? index = none
            ∨ jsTrim (stripLeadingNumber line) = ""
            ∨ jsTrim (stripLeadingNumber line) = "PASS")) := by
  constructor
  · intro groups entries
    induction entries with
    | nil =>
      intro acc hg
      simp [AIApiService.primaryScan]
    | cons entry rest ih =>
      intro acc hg
      obtain ⟨index, line⟩ := entry
      rw [AIApiService.primaryScan.eq_def]
      simp only [List.filterMap_cons]
      by_cases hpass : jsIncludes line "PASS" = true
      · simp only [hpass, if_true, primaryEntryReview]
        exact ih acc hg
      · have hpass' : jsIncludes line "PASS" = false := Bool.not_eq_true _ |>.mp hpass
        simp only [hpass', Bool.false_eq_true, if_false, primaryEntryReview]
        cases hgidx : groups.get? index with
        | none => exact ih acc hg
        | some group =>
          have hne := hg group (List.get?_mem hgidx)
          obtain ⟨lastLine, hlast⟩ := getLast?_of_ne_nil group.lines hne
          by_cases hcr : (jsTrim (stripLeadingNumber line) != ""
              && jsTrim (stripLeadingNumber line) != "PASS") = true
          · simp only [hcr, if_true, hlast, Option.map_some']
            rw [ih (acc ++ [AIApiService.mkReview group lastLine
              (jsTrim (stripLeadingNumber line))]) hg]
            simp
          · have hcr' := Bool.not_eq_true _ |>.mp hcr
            simp only [hcr', Bool.false_eq_true, if_false]
            exact ih acc hg
  · intro groups index line hg
    by_cases hpass : jsIncludes line "PASS" = true
    · constructor
      · intro _
        exact Or.inl hpass
      · intro _
        unfold primaryEntryReview
        simp [hpass]
    · have hpass' : jsIncludes line "PASS" = false := Bool.not_eq_true _ |>.mp hpass
      by_cases hgnone : groups.get? index = none
      · constructor
        · intro _
          exact Or.inr (Or.inl hgnone)
        · intro _
          unfold primaryEntryReview
          rw [hgnone]
          simp [hpass']
      · obtain ⟨group, hgidx⟩ : ∃ g, groups.get? index = some g := by
          cases hq : groups.get? index with
          | none => exact absurd hq hgnone
          | some g => exact ⟨g, rfl⟩
        have hne := hg group (List.get?_mem hgidx)
        obtain ⟨lastLine, hlast⟩ := getLast?_of_ne_nil group.lines hne
        have hval : primaryEntryReview groups (index, line)
            = if (jsTrim (stripLeadingNumber line) != ""
                  && jsTrim (stripLeadingNumber line) != "PASS") = true
              then some (AIApiService.mkReview group lastLine
                (jsTrim (stripLeadingNumber line)))
              else none := by
          unfold primaryEntryReview
          simp only [hpass', Bool.false_eq_true, if_false, hgidx, hlast,
            Option.map_some']
        by_cases hcr : (jsTrim (stripLeadingNumber line) != ""
            && jsTrim (stripLeadingNumber line) != "PASS") = true
        · rw [hval, if_pos hcr]
          have hc := Bool.and_eq_true _ _ |>.mp hcr
          constructor
          · intro hsome
            exact absurd hsome (by simp)
          · intro hdisj
            exfalso
            rcases hdisj with hx | hx | hx | hx
            · rw [hpass'] at hx
              exact absurd hx (by decide)
            · rw [hx] at hgidx
              exact Option.noConfusion hgidx
            · have hc1 := hc.1
              rw [hx] at hc1
              exact absurd hc1 (by decide)
            · have hc2 := hc.2
              rw [hx] at hc2
              exact absurd hc2 (by decide)
        · have hcr' := Bool.not_eq_true _ |>.mp hcr
          rw [hval, if_neg (by simp [hcr'])]
          constructor
          · intro _
            rcases Bool.and_eq_false_iff.mp hcr' with hx | hx
            · right; right; left
              simpa using hx
            · right; right; right
              simpa using hx
          · intro _
            rfl

/-- C4, witness for the amended theorem: a one-group scan over the single
entry `"1. PASS"` yields no review, by the characterization. -/
theorem c4_amended_witness :
    AIApiService.primaryScan
        [{ id := 1,
           lines := [{ type := "added", lineNumber := 7, content := "x",
                       originalLine := "+x" }],
           startLine := 7, endLine := 7, type := "added" }]
        [(0, "1. PASS")] []
      = ([] ++ [((0 : Nat), "1. PASS")].filterMap
          (primaryEntryReview
            [{ id := 1,
               lines := [{ type := "added", lineNumber := 7, content := "x",
                           originalLine := "+x" }],
               startLine := 7, endLine := 7, type := "added" }]), false) :=
  c4_amended.1 _ _ [] (by decide)

/-! ## Cache lemmas (C6, C10) -/

/-- After `mapSet`, every binding of the written key holds the written
entry. -/
theorem mapSet_uniform (cache : CacheState) (key : String) (entry : CacheEntry) :
    ∀ e ∈ CacheManager.mapSet cache key entry, e.1 = key → e.2 = entry := by
  intro e hmem hkey
  unfold CacheManager.mapSet at hmem
  by_cases hany : cache.any (fun e => e.1 == key) = true
  · rw [if_pos hany] at hmem
    obtain ⟨e0, he0, heq⟩ := List.mem_map.mp hmem
    by_cases hk : (e0.1 == key) = true
    · rw [if_pos hk] at heq
      rw [← heq]
    · rw [if_neg (by simp [Bool.not_eq_true _ |>.mp hk])] at heq
      rw [← heq] at hkey
      exact absurd (beq_iff_eq.mpr hkey) (by simp [Bool.not_eq_true _ |>.mp hk])
  · rw [if_neg hany] at hmem
    rcases List.mem_append.mp hmem with hmem | hmem
    · have hall := Bool.not_eq_true _ |>.mp hany
      rw [List.any_eq_false] at hall
      exact absurd (beq_iff_eq.mpr hkey) (by simp [hall e hmem])
    · rw [List.mem_singleton.mp hmem]

/-- After `mapSet`, some binding of the written key exists. -/
theorem mapSet_exists (cache : CacheState) (key : String) (entry : CacheEntry) :
    ∃ e ∈ CacheManager.mapSet cache key entry, e.1 = key := by
  unfold CacheManager.mapSet
  by_cases hany : cache.any (fun e => e.1 == key) = true
  · rw [if_pos hany]
    obtain ⟨e0, he0, hk⟩ := List.any_eq_true.mp hany
    refine ⟨(key, entry), List.mem_map.mpr ⟨e0, he0, ?_⟩, rfl⟩
    rw [if_pos hk]
  · rw [if_neg hany]
    exact ⟨(key, entry), List.mem_append.mpr (Or.inr (List.mem_singleton.mpr rfl)), rfl⟩

/-- When every binding of a key holds one fixed entry and some binding of
the key exists, `mapGet` returns that entry. -/
theorem mapGet_of_uniform (cache : CacheState) (key : String) (entry : CacheEntry)
    (huni : ∀ e ∈ cache, e.1 = key → e.2 = entry)
    (hex : ∃ e ∈ cache, e.1 = key) :
    CacheManager.mapGet cache key = some entry := by
  induction cache with
  | nil => simp at hex
  | cons e0 rest ih =>
    unfold CacheManager.mapGet
    by_cases hk : (e0.1 == key) = true
    · rw [List.find?_cons_of_pos]
      · simp only [Option.map_some']
        exact congrArg some (huni e0 (List.mem_cons_self e0 rest) (beq_iff_eq.mp hk))
      · exact hk
    · rw [List.find?_cons_of_neg]
      · have hex' : ∃ e ∈ rest, e.1 = key := by
          obtain ⟨e, hmem, hkey⟩ := hex
          rcases List.mem_cons.mp hmem with rfl | hmem
          · exact absurd (beq_iff_eq.mpr hkey) (by simp_all)
          · exact ⟨e, hmem, hkey⟩
        exact ih (fun e hmem hkey => huni e (List.mem_cons_of_mem e0 hmem) hkey) hex'
      · simp [Bool.not_eq_true _ |>.mp hk]

/-- C6.  Writing a batch's reviews and reading them back through the same
key returns exactly the stored reviews while the elapsed time is below the
TTL (`cache.expiry`, default 24 h in milliseconds), and `null` once the TTL
has elapsed. -/
theorem c6_cache_round_trip (cache : CacheState) (key : String)
    (reviews : List ReviewResult) (t now : Int) :
    (CacheManager.getCachedReview now
        (CacheManager.cacheReview t cache key reviews) key).1
      = if now - t < AI_REVIEW_CONFIG.cache.expiry then some reviews else none := by
  have hget : CacheManager.mapGet (CacheManager.cacheReview t cache key reviews) key
      = some { reviews := reviews, timestamp := t } := by
    unfold CacheManager.cacheReview
    have huni := mapSet_uniform cache key { reviews := reviews, timestamp := t }
    have hex := mapSet_exists cache key { reviews := reviews, timestamp := t }
    by_cases hsz : (CacheManager.mapSet cache key
        { reviews := reviews, timestamp := t }).length > AI_REVIEW_CONFIG.cache.maxSize
    · rw [if_pos hsz]
      refine mapGet_of_uniform _ key _ ?_ ?_
      · intro e hmem hkey
        exact huni e (List.mem_of_mem_filter hmem) hkey
      · obtain ⟨e, hmem, hkey⟩ := hex
        have he2 := huni e hmem hkey
        refine ⟨e, List.mem_filter.mpr ⟨hmem, ?_⟩, hkey⟩
        rw [he2]
        simp
        decide
    · rw [if_neg hsz]
      exact mapGet_of_uniform _ key _ huni hex
  rw [CacheManager.getCachedReview.eq_def, hget]
  by_cases h : now - t < AI_REVIEW_CONFIG.cache.expiry
  · simp [h]
  · simp [h]

/-- Every filter of a well-formed cache is well-formed. -/
theorem cacheWF_filter (cache : CacheState) (p : String × CacheEntry → Bool)
    (h : CacheWF cache) : CacheWF (cache.filter p) :=
  fun e hmem => h e (List.mem_of_mem_filter hmem)

/-- Writing a non-empty review list preserves well-formedness. -/
theorem cacheWF_mapSet (cache : CacheState) (key : String) (reviews : List ReviewResult)
    (now : Int) (h : CacheWF cache) (hr : reviews ≠ []) :
    CacheWF (CacheManager.mapSet cache key { reviews := reviews, timestamp := now }) := by
  intro e hmem
  unfold CacheManager.mapSet at hmem
  by_cases hany : cache.any (fun e => e.1 == key) = true
  · rw [if_pos hany] at hmem
    obtain ⟨e0, he0, heq⟩ := List.mem_map.mp hmem
    by_cases hk : (e0.1 == key) = true
    · rw [if_pos hk] at heq
      rw [← heq]
      exact hr
    · rw [if_neg (by simp [Bool.not_eq_true _ |>.mp hk])] at heq
      rw [← heq]
      exact h e0 he0
  · rw [if_neg hany] at hmem
    rcases List.mem_append.mp hmem with hmem | hmem
    · exact h e hmem
    · rw [List.mem_singleton.mp hmem]
      exact hr

/-- Embedding of `cacheReview` with a non-empty review list preserves well-formedness. -/
theorem cacheWF_cacheReview (cache : CacheState) (key : String)
    (reviews : List ReviewResult) (now : Int) (h : CacheWF cache) (hr : reviews ≠ []) :
    CacheWF (CacheManager.cacheReview now cache key reviews) := by
  unfold CacheManager.cacheReview CacheManager.cleanupCache
  by_cases hsz : (CacheManager.mapSet cache key
      { reviews := reviews, timestamp := now }).length > AI_REVIEW_CONFIG.cache.maxSize
  · rw [if_pos hsz]
    exact cacheWF_filter _ _ (cacheWF_mapSet cache key reviews now h hr)
  · rw [if_neg hsz]
    exact cacheWF_mapSet cache key reviews now h hr

/-- A cache read never changes the state except by deleting the read key. -/
theorem getCachedReview_state (now : Int) (cache : CacheState) (key : String) :
    (CacheManager.getCachedReview now cache key).2 = cache ∨
    (CacheManager.getCachedReview now cache key).2 = CacheManager.mapDelete cache key := by
  unfold CacheManager.getCachedReview
  cases CacheManager.mapGet cache key with
  | none => right; rfl
  | some cached =>
    by_cases h : now - cached.timestamp < AI_REVIEW_CONFIG.cache.expiry
    · left
      simp [h]
    · right
      simp [h]

/-- A missed cache read deletes the key. -/
theorem getCachedReview_miss_state (now : Int) (cache : CacheState) (key : String)
    (h : (CacheManager.getCachedReview now cache key).1 = none) :
    (CacheManager.getCachedReview now cache key).2 = CacheManager.mapDelete cache key := by
  unfold CacheManager.getCachedReview at h ⊢
  cases hmg : CacheManager.mapGet cache key with
  | none => simp only [hmg]
  | some cached =>
    simp only [hmg] at h ⊢
    by_cases hexp : now - cached.timestamp < AI_REVIEW_CONFIG.cache.expiry
    · rw [if_pos hexp] at h
      exact absurd h (by simp)
    · rw [if_neg hexp]

/-- A deleted key is no longer found. -/
theorem mapGet_mapDelete (cache : CacheState) (key : String) :
    CacheManager.mapGet (CacheManager.mapDelete cache key) key = none := by
  unfold CacheManager.mapGet CacheManager.mapDelete
  induction cache with
  | nil => rfl
  | cons e rest ih =>
    rw [List.filter_cons]
    by_cases he : (e.1 != key) = true
    · rw [if_pos he]
      rw [List.find?_cons_of_neg]
      · exact ih
      · simpa using he
    · rw [if_neg he]
      exact ih

/-- A hit returns the stored reviews of some cache entry. -/
theorem getCachedReview_hit_mem (now : Int) (cache : CacheState) (key : String)
    (r : List ReviewResult)
    (h : (CacheManager.getCachedReview now cache key).1 = some r) :
    ∃ e ∈ cache, e.2.reviews = r := by
  unfold CacheManager.getCachedReview at h
  cases hmg : CacheManager.mapGet cache key with
  | none =>
    simp only [hmg] at h
    exact absurd h (by simp)
  | some cached =>
    simp only [hmg] at h
    by_cases hexp : now - cached.timestamp < AI_REVIEW_CONFIG.cache.expiry
    · rw [if_pos hexp] at h
      have hr : cached.reviews = r := by
        simpa using h
      unfold CacheManager.mapGet at hmg
      obtain ⟨e, hfind, he2⟩ := Option.map_eq_some'.mp hmg
      exact ⟨e, List.mem_of_find?_eq_some hfind, by rw [he2, hr]⟩
    · rw [if_neg hexp] at h
      exact absurd h (by simp)

/-- C10.  The orchestrator caches a batch's reviews only when the list is
non-empty, so (1) `processBatchWithFallback` preserves the invariant that
every cache entry is non-empty, (2) under that invariant every cache hit is
a non-empty review list, and (3) a missed batch whose outcome is the empty
list runs the model, leaves no entry behind, and an identical re-invocation
runs the model again. -/
theorem c10_cache_nonempty :
    (∀ (now : Int) (cache : CacheState) (fileName : String) (batch : List CodeGroup)
        (parallelOutcome : Except Unit (List ReviewResult))
        (individualReviews : List ReviewResult),
      CacheWF cache →
      CacheWF (AICodeReviewer.processBatchWithFallback now cache fileName batch
        parallelOutcome individualReviews).2.1)
    ∧ (∀ (now : Int) (cache : CacheState) (key : String) (r : List ReviewResult),
        CacheWF cache →
        (CacheManager.getCachedReview now cache key).1 = some r → r ≠ [])
    ∧ (∀ (now : Int) (cache : CacheState) (fileName : String) (batch : List CodeGroup)
        (individualReviews : List ReviewResult),
        (CacheManager.getCachedReview now cache
          (CacheManager.generateCacheKey fileName batch)).1 = none →
        (AICodeReviewer.processBatchWithFallback now cache fileName batch
          (Except.ok []) individualReviews).2.2 = true ∧
        ∀ (now2 : Int) (po2 : Except Unit (List ReviewResult))
            (ir2 : List ReviewResult),
          (AICodeReviewer.processBatchWithFallback now2
            (AICodeReviewer.processBatchWithFallback now cache fileName batch
              (Except.ok []) individualReviews).2.1 fileName batch po2 ir2).2.2
            = true) := by
  have hwfdel : ∀ (cache : CacheState) (key : String), CacheWF cache →
      CacheWF (CacheManager.mapDelete cache key) := by
    intro cache key hwf
    unfold CacheManager.mapDelete
    exact cacheWF_filter _ _ hwf
  refine ⟨?_, ?_, ?_⟩
  · intro now cache fileName batch po ir hwf
    unfold AICodeReviewer.processBatchWithFallback
    rcases hq : CacheManager.getCachedReview now cache
      (CacheManager.generateCacheKey fileName batch) with ⟨fst, c1⟩
    have h2 := getCachedReview_state now cache
      (CacheManager.generateCacheKey fileName batch)
    rw [hq] at h2
    have hwf1 : CacheWF c1 := by
      rcases h2 with h2 | h2
      · rw [show c1 = cache from h2]
        exact hwf
      · rw [show c1 = CacheManager.mapDelete cache
            (CacheManager.generateCacheKey fileName batch) from h2]
        exact hwfdel cache _ hwf
    cases fst with
    | some r => simp only [hq]; exact hwf1
    | none =>
      simp only [hq]
      cases po with
      | error e => exact hwf1
      | ok reviews =>
        by_cases hlen : reviews.length > 0
        · simp only [hlen, if_pos]
          exact cacheWF_cacheReview c1 _ reviews now hwf1
            (by intro hnil; rw [hnil] at hlen; simp at hlen)
        · simp only [if_neg hlen]
          exact hwf1
  · intro now cache key r hwf h
    obtain ⟨e, hmem, he⟩ := getCachedReview_hit_mem now cache key r h
    rw [← he]
    exact hwf e hmem
  · intro now cache fileName batch ir h
    rcases hq0 : CacheManager.getCachedReview now cache
      (CacheManager.generateCacheKey fileName batch) with ⟨fst, c1⟩
    have hfst : fst = none := by
      rw [hq0] at h
      exact h
    subst hfst
    constructor
    · unfold AICodeReviewer.processBatchWithFallback
      simp only [hq0]
      simp
    · intro now2 po2 ir2
      have hstate : (AICodeReviewer.processBatchWithFallback now cache fileName batch
          (Except.ok []) ir).2.1 = c1 := by
        unfold AICodeReviewer.processBatchWithFallback
        simp only [hq0]
        simp
      have hc1 : c1 = CacheManager.mapDelete cache
          (CacheManager.generateCacheKey fileName batch) := by
        have hms := getCachedReview_miss_state now cache
          (CacheManager.generateCacheKey fileName batch) h
        rw [hq0] at hms
        exact hms
      rw [hstate, hc1]
      rcases hq2 : CacheManager.getCachedReview now2
        (CacheManager.mapDelete cache (CacheManager.generateCacheKey fileName batch))
        (CacheManager.generateCacheKey fileName batch) with ⟨fst2, c2⟩
      have hfst2 : fst2 = none := by
        have hm : (CacheManager.getCachedReview now2
            (CacheManager.mapDelete cache (CacheManager.generateCacheKey fileName batch))
            (CacheManager.generateCacheKey fileName batch)).1 = none := by
          unfold CacheManager.getCachedReview
          simp only [mapGet_mapDelete]
        rw [hq2] at hm
        exact hm
      subst hfst2
      unfold AICodeReviewer.processBatchWithFallback
      simp only [hq2]
      cases po2 with
      | error e => rfl
      | ok reviews =>
        by_cases hlen : reviews.length > 0
        · simp [hlen]
        · simp [hlen]

/-- C10, witness: on the empty cache a zero-result batch runs the model and
an identical second invocation runs it again. -/
theorem c10_cache_nonempty_witness :
    (AICodeReviewer.processBatchWithFallback 0 [] "a.js" []
      (Except.ok []) []).2.2 = true ∧
    (AICodeReviewer.processBatchWithFallback 1
      (AICodeReviewer.processBatchWithFallback 0 [] "a.js" []
        (Except.ok []) []).2.1 "a.js" [] (Except.ok []) []).2.2 = true := by
  have h := (c10_cache_nonempty.2.2) 0 [] "a.js" [] [] (by decide)
  exact ⟨h.1, h.2 1 (Except.ok []) []⟩

/-! ## Orchestrator lemmas (C9) -/

/-- Chunking then flattening restores the original list. -/
theorem chunkArray_flatten {α : Type} (size : Nat) (h : size ≠ 0) (l : List α) :
    (CodeProcessor.chunkArray l size).flatten = l := by
  rw [CodeProcessor.chunkArray.eq_def]
  rw [if_neg h]
  by_cases hemp : l.isEmpty = true
  · rw [if_pos hemp]
    rw [List.isEmpty_iff.mp hemp]
    rfl
  · rw [if_neg hemp]
    rw [List.flatten_cons, chunkArray_flatten size h (l.drop size)]
    exact List.take_append_drop size l
termination_by l.length
decreasing_by
  have h1 : 0 < l.length := by
    cases l with
    | nil => simp at hemp
    | cons a t => simp
  simp only [List.length_drop]
  omega

/-- Mapping `filterMap` over chunks and flattening equals `filterMap` over
the flattened list. -/
theorem flatten_map_filterMap {α β : Type} (f : α → Option β) (L : List (List α)) :
    (L.map (fun chunk => chunk.filterMap f)).flatten = L.flatten.filterMap f := by
  induction L with
  | nil => rfl
  | cons c Ls ih =>
    rw [List.map_cons, List.flatten_cons, List.flatten_cons, List.filterMap_append, ih]

/-- The concurrency chunking is invisible in the collected results: the
orchestrator keeps exactly the fulfilled non-null outcomes, in order. -/
theorem processFilesConcurrently_filterMap
    (outcome : CodeChange → Except Unit (Option FileReviewResult))
    (changes : List CodeChange) :
    AICodeReviewer.processFilesConcurrently outcome changes
      = changes.filterMap (fun change =>
          match outcome change with
          | .ok (some value) => some value
          | .ok none => none
          | .error _ => none) := by
  unfold AICodeReviewer.processFilesConcurrently
  rw [flatten_map_filterMap, chunkArray_flatten _ (by decide) changes]

/-- C9.  A file whose processing throws contributes no `FileReview`, the
overall call still returns (it is a total function into a plain list), and
every other file's result is untouched: the result over `changes` equals
the result over `changes` with the failing file removed. -/
theorem c9_error_absorption (gen : CodeChange → Except Unit (List ReviewResult))
    (changes : List CodeChange) (c0 : CodeChange) (e : Unit)
    (h : gen c0 = Except.error e) :
    AICodeReviewer.processSingleFile (gen c0) c0 = none
    ∧ AICodeReviewer.processFilesConcurrently
        (fun c => Except.ok (AICodeReviewer.processSingleFile (gen c) c)) changes
      = AICodeReviewer.processFilesConcurrently
          (fun c => Except.ok (AICodeReviewer.processSingleFile (gen c) c))
          (changes.filter (fun c => !(c == c0))) := by
  have h1 : AICodeReviewer.processSingleFile (gen c0) c0 = none := by
    unfold AICodeReviewer.processSingleFile
    rw [h]
  refine ⟨h1, ?_⟩
  rw [processFilesConcurrently_filterMap, processFilesConcurrently_filterMap]
  induction changes with
  | nil => rfl
  | cons c cs ih =>
    rw [List.filter_cons]
    by_cases hc : (!(c == c0)) = true
    · rw [if_pos hc]
      simp only [List.filterMap_cons]
      cases AICodeReviewer.processSingleFile (gen c) c with
      | none => exact ih
      | some v => rw [ih]
    · rw [if_neg hc]
      have hceq : c = c0 := by
        simpa using hc
      subst hceq
      simp only [List.filterMap_cons, h1]
      exact ih

/-- C9, witness: with one file whose generation throws, the pipeline
returns normally and the file contributes nothing. -/
theorem c9_error_absorption_witness :
    AICodeReviewer.processSingleFile
        ((fun _ : CodeChange => (Except.error () : Except Unit (List ReviewResult)))
          { new_path := some "a.js", old_path := none, diff := "+x" })
        { new_path := some "a.js", old_path := none, diff := "+x" } = none
    ∧ AICodeReviewer.processFilesConcurrently
        (fun c => Except.ok (AICodeReviewer.processSingleFile
          ((fun _ : CodeChange => (Except.error () : Except Unit (List ReviewResult))) c) c))
        [{ new_path := some "a.js", old_path := none, diff := "+x" }]
      = AICodeReviewer.processFilesConcurrently
          (fun c => Except.ok (AICodeReviewer.processSingleFile
            ((fun _ : CodeChange => (Except.error () : Except Unit (List ReviewResult))) c) c))
          ([{ new_path := some "a.js", old_path := none, diff := "+x" }].filter
            (fun c => !(c == { new_path := some "a.js", old_path := none, diff := "+x" }))) :=
  c9_error_absorption
    (fun _ => Except.error ())
    [{ new_path := some "a.js", old_path := none, diff := "+x" }]
    { new_path := some "a.js", old_path := none, diff := "+x" } () rfl

/-- C8.  For three groups and the single unnumbered response line
`"Consider renaming this variable"`, the parser returns exactly one
`ReviewResult`: the full response text anchored at group 1's last line;
groups 2 and 3 get nothing.  (The primary positional scan itself assigns
the line to group 1, so the shorter-response fallback never runs.) -/
theorem c8_fallback_single_line (fileName : String) (g1 g2 g3 : CodeGroup)
    (lastLine : ChangeLine) (hlast : g1.lines.getLast? = some lastLine) :
    AIApiService.parseBatchReviewResultFast fileName [g1, g2, g3]
      "Consider renaming this variable"
      = [AIApiService.mkReview g1 lastLine "Consider renaming this variable"] := by
  have hscan : AIApiService.primaryScan [g1, g2, g3]
      [(0, "Consider renaming this variable")] []
      = ([AIApiService.mkReview g1 lastLine "Consider renaming this variable"], false) := by
    rw [AIApiService.primaryScan.eq_def]
    have e5 : jsIncludes "Consider renaming this variable" "PASS" = false := by decide
    simp only [e5, Bool.false_eq_true, if_false, List.get?_cons_zero]
    have e6 : jsTrim (stripLeadingNumber "Consider renaming this variable")
        = "Consider renaming this variable" := by decide
    simp only [e6]
    have e7 : ("Consider renaming this variable" != ""
        && "Consider renaming this variable" != "PASS") = true := by decide
    simp only [e7, if_true, hlast]
    rfl
  simp only [AIApiService.parseBatchReviewResultFast]
  have e1 : AIApiService.nonEmptyLines "Consider renaming this variable"
      = ["Consider renaming this variable"] := by decide
  rw [e1]
  have e2 : (["Consider renaming this variable"].all fun line => jsIncludes line "PASS")
      = false := by decide
  rw [e2]
  simp only [Bool.false_eq_true, if_false]
  have e3 : (jsTrim "Consider renaming this variable" != ""
      && decide ("Consider renaming this variable".length > 10)) = true := by decide
  rw [e3]
  simp only [if_true]
  have e4 : (["Consider renaming this variable"] : List String).enum
      = [(0, "Consider renaming this variable")] := by decide
  rw [e4, hscan]
  simp

/-- C8, witness at a concrete three-group input. -/
theorem c8_fallback_single_line_witness :
    AIApiService.parseBatchReviewResultFast "a.js"
      [{ id := 1,
         lines := [{ type := "added", lineNumber := 7, content := "x",
                     originalLine := "+x" }],
         startLine := 7, endLine := 7, type := "added" },
       { id := 2,
         lines := [{ type := "added", lineNumber := 9, content := "y",
                     originalLine := "+y" }],
         startLine := 9, endLine := 9, type := "added" },
       { id := 3,
         lines := [{ type := "added", lineNumber := 12, content := "z",
                     originalLine := "+z" }],
         startLine := 12, endLine := 12, type := "added" }]
      "Consider renaming this variable"
      = [AIApiService.mkReview
          { id := 1,
            lines := [{ type := "added", lineNumber := 7, content := "x",
                        originalLine := "+x" }],
            startLine := 7, endLine := 7, type := "added" }
          { type := "added", lineNumber := 7, content := "x", originalLine := "+x" }
          "Consider renaming this variable"] :=
  c8_fallback_single_line "a.js" _ _ _ _ rfl
